import Mathlib

/-!
Shallow embedding of the Bird League API core: the dependency-free
multipart/form-data parser (src/multipart.js) and the JSON-file database
layer (src/db.js).

Byte buffers are lists of natural numbers, one element per byte.  The
JavaScript source decodes buffers with the latin1 codec, which maps each
byte to the character with the same code point, so a latin1 string and the
buffer it was decoded from are identified with the same `List Nat`.
-/

namespace BirdLeague

/-- Code points of a string literal.  For the ASCII header text handled by
the parser this is the identity byte encoding (latin1/UTF-8 agree). -/
def bytes (s : String) : List Nat := s.data.map Char.toNat

/-- CR LF pair, the wire format's line terminator. -/
def crlf : List Nat := [13, 10]

/-- The header/body separator CR LF CR LF searched for by
`str.indexOf("\r\n\r\n")` at src/multipart.js line 47. -/
def sepCrlf : List Nat := [13, 10, 13, 10]

/-- `buf.indexOf(delim)` on Node buffers (src/multipart.js line 109): index
of the first occurrence of `delim` in `buf`, scanning left to right; `none`
models the return value `-1`. -/
def firstIndexOf (buf delim : List Nat) : Option Nat :=
  if delim.isPrefixOf buf then some 0
  else
    match buf with
    | [] => none
    | _ :: t => (firstIndexOf t delim).map (· + 1)

theorem isPrefixOf_iff_exists (p l : List Nat) :
    p.isPrefixOf l = true ↔ ∃ t, l = p ++ t := by
  induction p generalizing l with
  | nil => simp [List.isPrefixOf]
  | cons a as ih =>
    cases l with
    | nil => simp [List.isPrefixOf]
    | cons b bs =>
      simp only [List.isPrefixOf, Bool.and_eq_true, beq_iff_eq, ih,
        List.cons_append, List.cons.injEq]
      constructor
      · rintro ⟨rfl, t, rfl⟩; exact ⟨t, rfl, rfl⟩
      · rintro ⟨t, rfl, rfl⟩; exact ⟨rfl, t, rfl⟩

theorem isPrefixOf_append_self (p t : List Nat) :
    p.isPrefixOf (p ++ t) = true :=
  (isPrefixOf_iff_exists p (p ++ t)).mpr ⟨t, rfl⟩

theorem firstIndexOf_bound {buf delim : List Nat} {i : Nat}
    (h : firstIndexOf buf delim = some i) : i + delim.length ≤ buf.length := by
  induction buf generalizing i with
  | nil =>
    unfold firstIndexOf at h
    by_cases hp : delim.isPrefixOf ([] : List Nat) = true
    · rw [if_pos hp] at h
      obtain ⟨t, ht⟩ := (isPrefixOf_iff_exists delim []).mp hp
      cases h
      have h1 : delim = [] ∧ t = [] := by
        constructor <;> [skip; skip] <;>
          · cases hd : delim <;> cases htl : t <;> simp [hd, htl] at ht ⊢
      simp [h1.1]
    · rw [if_neg hp] at h
      simp at h
  | cons b bs ih =>
    unfold firstIndexOf at h
    by_cases hp : delim.isPrefixOf (b :: bs) = true
    · rw [if_pos hp] at h
      cases h
      obtain ⟨t, ht⟩ := (isPrefixOf_iff_exists delim (b :: bs)).mp hp
      have : (b :: bs).length = delim.length + t.length := by
        rw [ht, List.length_append]
      omega
    · rw [if_neg hp] at h
      simp only [Option.map_eq_some'] at h
      obtain ⟨j, hj, rfl⟩ := h
      have := ih hj
      simp only [List.length_cons]
      omega

theorem firstIndexOf_eq_some_of {l pat : List Nat} {n : Nat}
    (hn : pat.isPrefixOf (l.drop n) = true)
    (hmin : ∀ i, i < n → pat.isPrefixOf (l.drop i) = false) :
    firstIndexOf l pat = some n := by
  induction l generalizing n with
  | nil =>
    cases n with
    | zero => unfold firstIndexOf; rw [if_pos (by simpa using hn)]
    | succ m =>
      have h0 := hmin 0 (Nat.succ_pos m)
      simp only [List.drop_nil] at h0 hn
      rw [h0] at hn
      exact absurd hn (by simp)
  | cons a t ih =>
    cases n with
    | zero =>
      unfold firstIndexOf
      rw [if_pos (by simpa using hn)]
    | succ m =>
      have h0 := hmin 0 (Nat.succ_pos m)
      simp only [List.drop_zero] at h0
      unfold firstIndexOf
      rw [if_neg (by simp [h0])]
      have ht : firstIndexOf t pat = some m := by
        apply ih
        · simpa using hn
        · intro i hi
          have := hmin (i + 1) (by omega)
          simpa using this
      simp [ht]

theorem firstIndexOf_some_spec {l pat : List Nat} {n : Nat}
    (h : firstIndexOf l pat = some n) :
    pat.isPrefixOf (l.drop n) = true ∧
      ∀ i, i < n → pat.isPrefixOf (l.drop i) = false := by
  induction l generalizing n with
  | nil =>
    unfold firstIndexOf at h
    by_cases hp : pat.isPrefixOf ([] : List Nat) = true
    · rw [if_pos hp] at h
      cases h
      exact ⟨by simpa using hp, by omega⟩
    · rw [if_neg hp] at h
      simp at h
  | cons a t ih =>
    unfold firstIndexOf at h
    by_cases hp : pat.isPrefixOf (a :: t) = true
    · rw [if_pos hp] at h
      cases h
      exact ⟨by simpa using hp, by omega⟩
    · rw [if_neg hp] at h
      simp only [Option.map_eq_some'] at h
      obtain ⟨j, hj, rfl⟩ := h
      obtain ⟨h1, h2⟩ := ih hj
      refine ⟨by simpa using h1, ?_⟩
      intro i hi
      cases i with
      | zero => rw [List.drop_zero]; exact Bool.eq_false_iff.mpr hp
      | succ k => simpa using h2 k (by omega)

/-- If `pat` fits entirely inside `x`, appending extra bytes on the right
does not change whether `pat` is a prefix. -/
theorem isPrefixOf_append_of_fits {pat x : List Nat} (b : List Nat)
    (hfit : pat.length ≤ x.length) :
    pat.isPrefixOf (x ++ b) = pat.isPrefixOf x := by
  induction pat generalizing x with
  | nil => simp [List.isPrefixOf]
  | cons p ps ih =>
    cases x with
    | nil => simp at hfit
    | cons y ys =>
      simp only [List.cons_append, List.isPrefixOf, List.append_eq]
      rw [ih (by simpa using hfit)]

theorem firstIndexOf_append_left {a : List Nat} (b : List Nat) {pat : List Nat} {n : Nat}
    (h : firstIndexOf a pat = some n) (hlen : n + pat.length ≤ a.length) :
    firstIndexOf (a ++ b) pat = some n := by
  obtain ⟨h1, h2⟩ := firstIndexOf_some_spec h
  apply firstIndexOf_eq_some_of
  · obtain ⟨s, hs⟩ := (isPrefixOf_iff_exists pat (a.drop n)).mp h1
    have : (a ++ b).drop n = pat ++ (s ++ b) := by
      rw [List.drop_append_eq_append_drop, Nat.sub_eq_zero_of_le (by omega),
        List.drop_zero, hs, List.append_assoc]
    rw [this]
    exact isPrefixOf_append_self _ _
  · intro i hi
    have hia : i ≤ a.length := by omega
    have hd : (a ++ b).drop i = a.drop i ++ b := by
      rw [List.drop_append_eq_append_drop, Nat.sub_eq_zero_of_le hia, List.drop_zero]
    rw [hd, isPrefixOf_append_of_fits b (by rw [List.length_drop]; omega)]
    exact h2 i hi

theorem firstIndexOf_too_long {l pat : List Nat} (h : l.length < pat.length) :
    firstIndexOf l pat = none := by
  induction l with
  | nil =>
    unfold firstIndexOf
    have hp : pat.isPrefixOf ([] : List Nat) = false := by
      by_contra hc
      simp only [Bool.not_eq_false] at hc
      obtain ⟨s, hs⟩ := (isPrefixOf_iff_exists pat _).mp hc
      have : ([] : List Nat).length = pat.length + s.length := by rw [hs]; simp
      simp at this
      omega
    rw [if_neg (by simp [hp])]
  | cons x t ih =>
    unfold firstIndexOf
    have hp : pat.isPrefixOf (x :: t) = false := by
      by_contra hc
      simp only [Bool.not_eq_false] at hc
      obtain ⟨s, hs⟩ := (isPrefixOf_iff_exists pat _).mp hc
      have hl : (x :: t).length = pat.length + s.length := by rw [hs]; simp
      have hlen := h
      simp only [List.length_cons] at hl hlen
      omega
    rw [if_neg (by simp [hp])]
    have ht : firstIndexOf t pat = none := ih (by simp only [List.length_cons] at h ⊢; omega)
    simp [ht]

/-- The `while (true)` loop of `splitBuffer` (src/multipart.js lines
105-118), made structurally recursive with explicit fuel.  Each iteration
consumes at least `delim.length ≥ 1` bytes of `buf` (the delimiter passed by
`parseMultipart` is `--boundary`, never empty), so `splitBuffer` below always
supplies enough fuel for the loop to run to completion. -/
def splitBufferAux : Nat → List Nat → List Nat → List (List Nat)
  | 0, buf, _ => [buf]
  | fuel + 1, buf, delim =>
    match firstIndexOf buf delim with
    | none => [buf]
    | some idx =>
      (if 0 < idx then [buf.take idx] else []) ++
        splitBufferAux fuel (buf.drop (idx + delim.length)) delim

/-- Split a buffer by a delimiter buffer: `splitBuffer` of src/multipart.js
lines 104-118.  Empty segments between adjacent delimiters are not emitted;
the final segment after the last delimiter always is. -/
def splitBuffer (buf delim : List Nat) : List (List Nat) :=
  splitBufferAux (buf.length + 1) buf delim

theorem splitBufferAux_fuel {delim : List Nat} (hd : delim ≠ []) :
    ∀ f1 f2 buf, buf.length < f1 → buf.length < f2 →
      splitBufferAux f1 buf delim = splitBufferAux f2 buf delim := by
  intro f1
  induction f1 with
  | zero => intro f2 buf h1; omega
  | succ a ih =>
    intro f2 buf h1 h2
    cases f2 with
    | zero => omega
    | succ b =>
      show splitBufferAux (a + 1) buf delim = splitBufferAux (b + 1) buf delim
      rcases hf : firstIndexOf buf delim with _ | idx
      · simp only [splitBufferAux, hf]
      · have hbnd := firstIndexOf_bound hf
        have hdl : 1 ≤ delim.length := by
          cases delim with
          | nil => exact absurd rfl hd
          | cons c cs => simp
        have hlt : (buf.drop (idx + delim.length)).length < buf.length := by
          rw [List.length_drop]; omega
        simp only [splitBufferAux, hf]
        congr 1
        exact ih b (buf.drop (idx + delim.length)) (by omega) (by omega)

theorem splitBuffer_eq_none {buf delim : List Nat}
    (h : firstIndexOf buf delim = none) : splitBuffer buf delim = [buf] := by
  unfold splitBuffer splitBufferAux
  simp [h]

theorem splitBuffer_eq_some {buf delim : List Nat} {idx : Nat} (hd : delim ≠ [])
    (h : firstIndexOf buf delim = some idx) :
    splitBuffer buf delim =
      (if 0 < idx then [buf.take idx] else []) ++
        splitBuffer (buf.drop (idx + delim.length)) delim := by
  have hb := firstIndexOf_bound h
  have hdl : 1 ≤ delim.length := by
    cases delim with
    | nil => exact absurd rfl hd
    | cons c cs => simp
  show splitBufferAux (buf.length + 1) buf delim = _
  simp only [splitBufferAux, h]
  congr 1
  apply splitBufferAux_fuel hd
  · rw [List.length_drop]; omega
  · rw [List.length_drop]; omega

theorem splitBuffer_delim_first {delim : List Nat} (rest : List Nat) (hd : delim ≠ []) :
    splitBuffer (delim ++ rest) delim = splitBuffer rest delim := by
  have h0 : firstIndexOf (delim ++ rest) delim = some 0 := by
    unfold firstIndexOf
    simp [isPrefixOf_append_self]
  rw [splitBuffer_eq_some hd h0]
  simp [List.drop_left]

/-- JavaScript whitespace recognised by `String.prototype.trim` within the
latin1 code-point range: TAB, LF, VT, FF, CR, SP, NBSP. -/
def isJsWhite (c : Nat) : Bool :=
  c == 9 || c == 10 || c == 11 || c == 12 || c == 13 || c == 32 || c == 160

/-- Remove trailing JavaScript whitespace. -/
def trimRight (l : List Nat) : List Nat :=
  (l.reverse.dropWhile isJsWhite).reverse

/-- `str.trim()`: remove leading and trailing JavaScript whitespace
(src/multipart.js line 44). -/
def jsTrim (l : List Nat) : List Nat :=
  trimRight (l.dropWhile isJsWhite)

/-- First match of the JavaScript regex `key ++ ([^"]+)"` against a latin1
string, where `key` is a nonempty literal ending in an opening quote — this
models `headerStr.match(/name="([^"]+)"/)` and the `filename` variant
(src/multipart.js lines 54-55).  The engine scans start positions left to
right; at a position where the literal matches, the greedy nonempty run of
non-quote characters must be followed by a closing quote, otherwise (since
every shorter nonempty capture is also followed by a non-quote) the engine
moves to the next start position. -/
def matchQuoted (key : List Nat) : List Nat → Option (List Nat)
  | [] => none
  | l@(_ :: t) =>
    if key.isPrefixOf l then
      let rest := l.drop key.length
      let cap := rest.takeWhile (fun c => c != 34)
      if cap ≠ [] ∧ cap.length < rest.length then some cap
      else matchQuoted key t
    else matchQuoted key t

/-- `contentType.match(/boundary=(.+)/)` (src/multipart.js line 24): the
capture is everything after the first occurrence of `boundary=` up to the
next line feed (`.` does not match LF) and must be nonempty; on an empty
capture the engine moves to the next start position. -/
def matchBoundary : List Nat → Option (List Nat)
  | [] => none
  | l@(_ :: t) =>
    if (bytes "boundary=").isPrefixOf l then
      let cap := (l.drop (bytes "boundary=").length).takeWhile (fun c => c != 10)
      if cap ≠ [] then some cap else matchBoundary t
    else matchBoundary t

/-- One parsed file part (src/multipart.js lines 61-86).  The on-disk
artifacts (`savedName` from `crypto.randomUUID`, `savedPath`, the
`fs.writeFileSync` call) and the declared `mimeType` are I/O metadata not
modelled here; the parsed identity (field name, original file name) and the
exact body bytes (`trimmed`, whose length is the reported `size`) are. -/
structure Attachment where
  fieldName : List Nat
  originalName : List Nat
  body : List Nat
  deriving DecidableEq

/-- The aggregate `{ fields: {}, files: [] }` result object
(src/multipart.js line 36).  A JavaScript object is modelled as an
association list with at most one entry per key: assignment to an existing
key replaces its value in place, assignment to a fresh key appends. -/
structure ParseResult where
  fields : List (List Nat × List Nat)
  files : List Attachment
  deriving DecidableEq

/-- `result.fields[fieldName] = val` (src/multipart.js line 92): JavaScript
object assignment — overwrite the existing entry for the key if any,
otherwise append a new entry. -/
def setField (fs : List (List Nat × List Nat)) (k v : List Nat) :
    List (List Nat × List Nat) :=
  if fs.any (fun e => e.1 == k) then
    fs.map (fun e => if e.1 == k then (k, v) else e)
  else fs ++ [(k, v)]

/-- Object property lookup `fields[k]`. -/
def lookupField (fs : List (List Nat × List Nat)) (k : List Nat) :
    Option (List Nat) :=
  (fs.find? (fun e => e.1 == k)).map (fun e => e.2)

/-- The attachment-body trim of src/multipart.js lines 72-74: drop one
trailing CR LF pair, but only when the raw body is longer than two bytes
(`bodyBuf.length > 2 && bodyBuf[len-2] === 0x0d && bodyBuf[len-1] === 0x0a`). -/
def trimAttach (b : List Nat) : List Nat :=
  if 2 < b.length ∧ b.getD (b.length - 2) 0 = 13 ∧ b.getD (b.length - 1) 0 = 10 then
    b.take (b.length - 2)
  else b

/-- The field-value trim of src/multipart.js line 91:
`if (val.endsWith("\r\n")) val = val.slice(0, -2)`. -/
def trimFieldVal (v : List Nat) : List Nat :=
  if crlf.isSuffixOf v then v.take (v.length - 2) else v

/-- Processing of one boundary-delimited segment: the body of the `for` loop
of src/multipart.js lines 42-94.  `part.toString("latin1")` is the identity
on code points, so the latin1 string `str` and the buffer `part` are the
same list, and `Buffer.byteLength(str.substring(0, bodyStart), "latin1")`
equals `bodyStart` (line 70).  The `else` branch of the filename test is
reached both when the filename regex does not match and when its capture is
empty (`filenameMatch && filenameMatch[1]`, line 61; the regex capture
`([^"]+)` can in fact never be empty). -/
def processPart (acc : ParseResult) (part : List Nat) : ParseResult :=
  if jsTrim part = [] ∨ jsTrim part = [45, 45] then acc
  else
    match firstIndexOf part sepCrlf with
    | none => acc
    | some sepIdx =>
      let headerStr := part.take sepIdx
      let bodyStart := sepIdx + 4
      match matchQuoted (bytes "name=\"") headerStr with
      | none => acc
      | some fieldName =>
        let fieldCase : ParseResult :=
          { acc with fields := setField acc.fields fieldName (trimFieldVal (part.drop bodyStart)) }
        match matchQuoted (bytes "filename=\"") headerStr with
        | some originalName =>
          if originalName ≠ [] then
            { acc with files := acc.files ++
                [{ fieldName := fieldName, originalName := originalName,
                   body := trimAttach (part.drop bodyStart) }] }
          else fieldCase
        | none => fieldCase

/-- The `for (const part of parts)` loop over the split segments
(src/multipart.js lines 42-94), starting from the empty result. -/
def parseParts (parts : List (List Nat)) : ParseResult :=
  parts.foldl processPart { fields := [], files := [] }

/-- `parseMultipart` (src/multipart.js lines 21-102) as a function of the
request's content-type header bytes and fully buffered body bytes.  `none`
models the promise rejecting with "No boundary found in content-type";
`some` is the resolved `{ fields, files }` value. -/
def parseMultipart (contentType buffer : List Nat) : Option ParseResult :=
  match matchBoundary contentType with
  | none => none
  | some boundary =>
    some (parseParts (splitBuffer buffer ([45, 45] ++ boundary)))

/-! ### Per-segment classifiers

Derived observers of a single segment, read off the same computations that
`processPart` performs; they let the loop be described part by part. -/

/-- Index of the header/body separator in a segment, if any. -/
def partSep (part : List Nat) : Option Nat := firstIndexOf part sepCrlf

/-- The capture of the name regex on the segment's header block. -/
def partName (part : List Nat) : Option (List Nat) :=
  (partSep part).bind (fun i => matchQuoted (bytes "name=\"") (part.take i))

/-- The capture of the filename regex on the segment's header block. -/
def partFilename (part : List Nat) : Option (List Nat) :=
  (partSep part).bind (fun i => matchQuoted (bytes "filename=\"") (part.take i))

/-- Segments that are empty or the closing `--` residue after trimming
(src/multipart.js line 44). -/
def isBoundaryResidue (part : List Nat) : Bool :=
  jsTrim part == [] || jsTrim part == [45, 45]

/-- Segments the loop skips: boundary residue, no header/body separator, or
no match of the name regex. -/
def isDroppedPart (part : List Nat) : Bool :=
  isBoundaryResidue part || (partSep part).isNone || (partName part).isNone

/-- Segments stored as attachments: not dropped, and the filename regex
produced a nonempty capture. -/
def isAttachmentPart (part : List Nat) : Bool :=
  !isDroppedPart part &&
    (match partFilename part with
     | some f => !f.isEmpty
     | none => false)

/-- Segments stored as text fields: processed, but not as an attachment. -/
def isFieldPart (part : List Nat) : Bool :=
  !isDroppedPart part && !isAttachmentPart part

/-- The attachment produced by an attachment segment. -/
def attachOf (part : List Nat) : Option Attachment :=
  if isAttachmentPart part then
    match partSep part, partName part, partFilename part with
    | some i, some nm, some fn =>
      some { fieldName := nm, originalName := fn, body := trimAttach (part.drop (i + 4)) }
    | _, _, _ => none
  else none

/-- The stored value of a field segment. -/
def fieldValOf (part : List Nat) : Option (List Nat) :=
  (partSep part).map (fun i => trimFieldVal (part.drop (i + 4)))

theorem partName_eq_of_sep {part : List Nat} {i : Nat}
    (hs : firstIndexOf part sepCrlf = some i) :
    partName part = matchQuoted (bytes "name=\"") (part.take i) := by
  unfold partName partSep
  rw [hs]
  rfl

theorem partFilename_eq_of_sep {part : List Nat} {i : Nat}
    (hs : firstIndexOf part sepCrlf = some i) :
    partFilename part = matchQuoted (bytes "filename=\"") (part.take i) := by
  unfold partFilename partSep
  rw [hs]
  rfl

theorem fieldValOf_eq_of_sep {part : List Nat} {i : Nat}
    (hs : firstIndexOf part sepCrlf = some i) :
    fieldValOf part = some (trimFieldVal (part.drop (i + 4))) := by
  unfold fieldValOf partSep
  rw [hs]
  rfl

theorem isDroppedPart_false_iff {part : List Nat} : isDroppedPart part = false ↔
    ¬(jsTrim part = [] ∨ jsTrim part = [45, 45]) ∧
      (partSep part).isSome = true ∧ (partName part).isSome = true := by
  unfold isDroppedPart isBoundaryResidue
  simp [not_or, Option.isNone_eq_false_iff, ← Option.ne_none_iff_isSome]
  tauto

theorem isAttachmentPart_true_iff {part : List Nat} : isAttachmentPart part = true ↔
    isDroppedPart part = false ∧ ∃ fn, partFilename part = some fn ∧ fn ≠ [] := by
  unfold isAttachmentPart
  rcases hf : partFilename part with _ | fn
  · simp [hf]
  · simp [hf, List.isEmpty_iff]

theorem processPart_dropped {part : List Nat} (h : isDroppedPart part = true)
    (acc : ParseResult) : processPart acc part = acc := by
  by_cases hres : jsTrim part = [] ∨ jsTrim part = [45, 45]
  · unfold processPart
    rw [if_pos hres]
  · have hres1 : (jsTrim part == ([] : List Nat)) = false :=
      beq_eq_false_iff_ne.mpr (fun hc => hres (Or.inl hc))
    have hres2 : (jsTrim part == ([45, 45] : List Nat)) = false :=
      beq_eq_false_iff_ne.mpr (fun hc => hres (Or.inr hc))
    rcases hs : firstIndexOf part sepCrlf with _ | i
    · unfold processPart
      rw [if_neg hres, hs]
    · have hname : matchQuoted (bytes "name=\"") (part.take i) = none := by
        unfold isDroppedPart isBoundaryResidue partName partSep at h
        rw [hs] at h
        simp [hres1, hres2] at h
        exact h
      unfold processPart
      rw [if_neg hres, hs]
      simp only [hname]

theorem processPart_attach {part : List Nat} {a : Attachment}
    (h : attachOf part = some a) (acc : ParseResult) :
    processPart acc part = { acc with files := acc.files ++ [a] } := by
  by_cases hA : isAttachmentPart part = true
  · obtain ⟨hD, fn, hpf, hfne⟩ := isAttachmentPart_true_iff.mp hA
    obtain ⟨hres, hsep, hnm⟩ := isDroppedPart_false_iff.mp hD
    obtain ⟨i, hs⟩ := Option.isSome_iff_exists.mp hsep
    obtain ⟨nm, hpn⟩ := Option.isSome_iff_exists.mp hnm
    have hs' : firstIndexOf part sepCrlf = some i := hs
    have hn : matchQuoted (bytes "name=\"") (part.take i) = some nm := by
      rw [partName_eq_of_sep hs'] at hpn
      exact hpn
    have hf : matchQuoted (bytes "filename=\"") (part.take i) = some fn := by
      rw [partFilename_eq_of_sep hs'] at hpf
      exact hpf
    have ha : a = ⟨nm, fn, trimAttach (part.drop (i + 4))⟩ := by
      unfold attachOf at h
      rw [if_pos hA, hs, hpn, hpf] at h
      simpa [eq_comm] using h
    unfold processPart
    rw [if_neg hres, hs']
    simp only [hn, hf]
    rw [if_pos hfne, ha]
  · unfold attachOf at h
    rw [if_neg hA] at h
    simp at h

theorem processPart_field {part : List Nat} (hf : isFieldPart part = true)
    {k v : List Nat} (hk : partName part = some k) (hv : fieldValOf part = some v)
    (acc : ParseResult) :
    processPart acc part = { acc with fields := setField acc.fields k v } := by
  have hf' := hf
  unfold isFieldPart at hf'
  simp only [Bool.and_eq_true, Bool.not_eq_true'] at hf'
  obtain ⟨hD, hA⟩ := hf'
  obtain ⟨hres, hsep, hnm⟩ := isDroppedPart_false_iff.mp hD
  obtain ⟨i, hs⟩ := Option.isSome_iff_exists.mp hsep
  have hs' : firstIndexOf part sepCrlf = some i := hs
  have hn : matchQuoted (bytes "name=\"") (part.take i) = some k := by
    rw [partName_eq_of_sep hs'] at hk
    exact hk
  have hvv : v = trimFieldVal (part.drop (i + 4)) := by
    rw [fieldValOf_eq_of_sep hs'] at hv
    simpa [eq_comm] using hv
  unfold processPart
  rw [if_neg hres, hs']
  rcases hfm : matchQuoted (bytes "filename=\"") (part.take i) with _ | fn
  · simp only [hn, hfm, hvv]
  · have hpf : partFilename part = some fn := by
      rw [partFilename_eq_of_sep hs']
      exact hfm
    have hfn : fn = [] := by
      by_contra hc
      have : isAttachmentPart part = true :=
        isAttachmentPart_true_iff.mpr ⟨hD, fn, hpf, hc⟩
      rw [this] at hA
      exact absurd hA (by simp)
    simp only [hn, hfm]
    rw [if_neg (by simp [hfn])]
    simp only [hvv]

theorem isAttachmentPart_iff_attachOf {part : List Nat} :
    isAttachmentPart part = true ↔ (attachOf part).isSome = true := by
  constructor
  · intro hA
    obtain ⟨hD, fn, hpf, hfne⟩ := isAttachmentPart_true_iff.mp hA
    obtain ⟨hres, hsep, hnm⟩ := isDroppedPart_false_iff.mp hD
    obtain ⟨i, hs⟩ := Option.isSome_iff_exists.mp hsep
    obtain ⟨nm, hpn⟩ := Option.isSome_iff_exists.mp hnm
    unfold attachOf
    rw [if_pos hA, hs, hpn, hpf]
    simp
  · intro hS
    by_cases hA : isAttachmentPart part = true
    · exact hA
    · unfold attachOf at hS
      rw [if_neg hA] at hS
      simp at hS

theorem isFieldPart_parts {part : List Nat} (hf : isFieldPart part = true) :
    ∃ k v, partName part = some k ∧ fieldValOf part = some v := by
  have hf' := hf
  unfold isFieldPart at hf'
  simp only [Bool.and_eq_true, Bool.not_eq_true'] at hf'
  obtain ⟨hD, hA⟩ := hf'
  obtain ⟨hres, hsep, hnm⟩ := isDroppedPart_false_iff.mp hD
  obtain ⟨i, hs⟩ := Option.isSome_iff_exists.mp hsep
  obtain ⟨nm, hn⟩ := Option.isSome_iff_exists.mp hnm
  exact ⟨nm, trimFieldVal (part.drop (i + 4)), hn, fieldValOf_eq_of_sep hs⟩

theorem part_trichotomy (part : List Nat) :
    isDroppedPart part = true ∨ isAttachmentPart part = true ∨ isFieldPart part = true := by
  by_cases hD : isDroppedPart part = true
  · exact Or.inl hD
  · by_cases hA : isAttachmentPart part = true
    · exact Or.inr (Or.inl hA)
    · refine Or.inr (Or.inr ?_)
      unfold isFieldPart
      simp only [Bool.and_eq_true, Bool.not_eq_true']
      exact ⟨by simpa using hD, by simpa using hA⟩

theorem find?_append_none {p : List Nat × List Nat → Bool}
    {fs : List (List Nat × List Nat)} (h : fs.find? p = none)
    (g : List (List Nat × List Nat)) : (fs ++ g).find? p = g.find? p := by
  induction fs with
  | nil => simp
  | cons e t ih =>
    by_cases pe : p e = true
    · rw [List.find?_cons_of_pos _ pe] at h
      exact absurd h (by simp)
    · rw [List.find?_cons_of_neg _ pe] at h
      rw [List.cons_append, List.find?_cons_of_neg _ pe]
      exact ih h

theorem find?_append_last {p : List Nat × List Nat → Bool}
    {x : List Nat × List Nat} (fs : List (List Nat × List Nat))
    (hx : p x = false) : (fs ++ [x]).find? p = fs.find? p := by
  induction fs with
  | nil => simp [List.find?, hx]
  | cons e t ih =>
    by_cases pe : p e = true
    · rw [List.cons_append, List.find?_cons_of_pos _ pe, List.find?_cons_of_pos _ pe]
    · rw [List.cons_append, List.find?_cons_of_neg _ pe, List.find?_cons_of_neg _ pe]
      exact ih

theorem lookupField_setField_self (fs : List (List Nat × List Nat)) (k v : List Nat) :
    lookupField (setField fs k v) k = some v := by
  unfold setField lookupField
  by_cases hmem : fs.any (fun e => e.1 == k) = true
  · rw [if_pos hmem]
    induction fs with
    | nil => simp at hmem
    | cons e t ih =>
      simp only [List.map_cons]
      by_cases he : (e.1 == k) = true
      · rw [if_pos he, List.find?_cons_of_pos]
        · simp
        · simp
      · rw [if_neg he, List.find?_cons_of_neg]
        · apply ih
          simp only [List.any_cons, Bool.or_eq_true] at hmem
          tauto
        · exact he
  · rw [if_neg hmem]
    have hnone : fs.find? (fun e => e.1 == k) = none := by
      rw [List.find?_eq_none]
      intro x hx hpx
      have : fs.any (fun e => e.1 == k) = true := List.any_eq_true.mpr ⟨x, hx, hpx⟩
      exact hmem this
    rw [find?_append_none hnone, List.find?_cons_of_pos]
    · simp
    · simp

theorem lookupField_setField_other (fs : List (List Nat × List Nat)) (k k' v : List Nat)
    (h : k' ≠ k) :
    lookupField (setField fs k v) k' = lookupField fs k' := by
  unfold setField lookupField
  by_cases hmem : fs.any (fun e => e.1 == k) = true
  · rw [if_pos hmem]
    clear hmem
    congr 1
    induction fs with
    | nil => simp
    | cons e t ih =>
      simp only [List.map_cons]
      by_cases he : (e.1 == k) = true
      · have he' : e.1 = k := by simpa using he
        rw [if_pos he, List.find?_cons_of_neg, List.find?_cons_of_neg]
        · exact ih
        · simp [he']
          exact fun hc => h hc.symm
        · simp
          exact fun hc => h hc.symm
      · rw [if_neg he]
        by_cases he2 : (e.1 == k') = true
        · rw [List.find?_cons_of_pos, List.find?_cons_of_pos]
          · exact he2
          · exact he2
        · rw [List.find?_cons_of_neg, List.find?_cons_of_neg]
          · exact ih
          · exact he2
          · exact he2
  · rw [if_neg hmem]
    congr 1
    apply find?_append_last fs
    simp
    exact fun hc => h hc.symm

/-- Entry contributed to the fields map by a segment, for a fixed key. -/
def fieldEntryFor (k : List Nat) (part : List Nat) : Option (List Nat) :=
  if isFieldPart part = true ∧ partName part = some k then fieldValOf part else none

theorem parseFold_files (parts : List (List Nat)) (acc : ParseResult) :
    (parts.foldl processPart acc).files = acc.files ++ parts.filterMap attachOf := by
  induction parts generalizing acc with
  | nil => simp
  | cons p rest ih =>
    rcases part_trichotomy p with hD | hA | hF
    · have hAo : attachOf p = none := by
        rcases ho : attachOf p with _ | a
        · rfl
        · have := isAttachmentPart_iff_attachOf.mpr (by rw [ho]; rfl)
          have hcon : isFieldPart p = false ∧ isAttachmentPart p = false := by
            unfold isAttachmentPart isFieldPart
            simp [hD]
          rw [this] at hcon
          simp at hcon
      simp only [List.foldl_cons, processPart_dropped hD, List.filterMap_cons, hAo]
      exact ih acc
    · obtain ⟨a, ha⟩ := Option.isSome_iff_exists.mp (isAttachmentPart_iff_attachOf.mp hA)
      simp only [List.foldl_cons, processPart_attach ha, List.filterMap_cons, ha]
      rw [ih]
      simp
    · have hAo : attachOf p = none := by
        rcases ho : attachOf p with _ | a
        · rfl
        · have := isAttachmentPart_iff_attachOf.mpr (by rw [ho]; rfl)
          unfold isFieldPart at hF
          rw [this] at hF
          simp at hF
      obtain ⟨k, v, hk, hv⟩ := isFieldPart_parts hF
      simp only [List.foldl_cons, processPart_field hF hk hv, List.filterMap_cons, hAo]
      exact ih _

theorem parseFold_fields (parts : List (List Nat)) (acc : ParseResult) (k : List Nat) :
    lookupField (parts.foldl processPart acc).fields k =
      ((parts.filterMap (fieldEntryFor k)).getLast?).or (lookupField acc.fields k) := by
  induction parts generalizing acc with
  | nil => simp
  | cons p rest ih =>
    rcases part_trichotomy p with hD | hA | hF
    · have hE : fieldEntryFor k p = none := by
        unfold fieldEntryFor
        rw [if_neg]
        rintro ⟨hf, -⟩
        unfold isFieldPart at hf
        simp [hD] at hf
      simp only [List.foldl_cons, processPart_dropped hD, List.filterMap_cons, hE]
      exact ih acc
    · have hE : fieldEntryFor k p = none := by
        unfold fieldEntryFor
        rw [if_neg]
        rintro ⟨hf, -⟩
        unfold isFieldPart at hf
        simp [hA] at hf
      obtain ⟨a, ha⟩ := Option.isSome_iff_exists.mp (isAttachmentPart_iff_attachOf.mp hA)
      simp only [List.foldl_cons, processPart_attach ha, List.filterMap_cons, hE]
      rw [ih]
    · obtain ⟨k', v, hk', hv⟩ := isFieldPart_parts hF
      by_cases hkk : k' = k
      · rw [hkk] at hk'
        have hE : fieldEntryFor k p = some v := by
          unfold fieldEntryFor
          rw [if_pos ⟨hF, hk'⟩, hv]
        simp only [List.foldl_cons, processPart_field hF hk' hv, List.filterMap_cons, hE]
        rw [ih]
        show (List.filterMap (fieldEntryFor k) rest).getLast?.or
            (lookupField (setField acc.fields k v) k) = _
        rw [lookupField_setField_self]
        rcases hr : rest.filterMap (fieldEntryFor k) with _ | ⟨x, xs⟩
        · simp
        · rw [List.getLast?_cons_cons]
          rcases hw : (x :: xs).getLast? with _ | w
          · rw [List.getLast?_eq_none_iff] at hw
            exact absurd hw (by simp)
          · simp
      · have hE : fieldEntryFor k p = none := by
          unfold fieldEntryFor
          rw [if_neg]
          rintro ⟨-, hn⟩
          rw [hk'] at hn
          simp at hn
          exact hkk hn
        simp only [List.foldl_cons, processPart_field hF hk' hv, List.filterMap_cons, hE]
        rw [ih]
        show (List.filterMap (fieldEntryFor k) rest).getLast?.or
            (lookupField (setField acc.fields k' v) k) = _
        rw [lookupField_setField_other acc.fields k' k v (fun hc => hkk hc.symm)]

theorem length_filterMap_attachOf (parts : List (List Nat)) :
    (parts.filterMap attachOf).length = parts.countP isAttachmentPart := by
  induction parts with
  | nil => simp
  | cons p rest ih =>
    rw [List.filterMap_cons, List.countP_cons]
    rcases ho : attachOf p with _ | a
    · have hA : isAttachmentPart p = false := by
        rcases hb : isAttachmentPart p
        · rfl
        · have := isAttachmentPart_iff_attachOf.mp hb
          rw [ho] at this
          exact absurd this (by simp)
      simp [hA, ih]
    · have hA : isAttachmentPart p = true :=
        isAttachmentPart_iff_attachOf.mpr (by rw [ho]; rfl)
      simp [hA, ih]

theorem fieldEntryFor_isSome_iff {k p : List Nat} :
    (fieldEntryFor k p).isSome = true ↔
      isFieldPart p = true ∧ partName p = some k := by
  unfold fieldEntryFor
  by_cases hc : isFieldPart p = true ∧ partName p = some k
  · rw [if_pos hc]
    obtain ⟨k', v, hk, hv⟩ := isFieldPart_parts hc.1
    simp [hv, hc]
  · rw [if_neg hc]
    simp [hc]

/-- Test segment whose header carries a present-but-empty filename
attribute (`filename=""`). -/
def partFilenameEmpty : List Nat :=
  bytes "\r\nContent-Disposition: form-data; name=\"photo\"; filename=\"\"\r\n\r\nhi\r\n"

/-- Claim C3: for every multipart payload, the keys of the returned fields
map are exactly the names of the processed parts without a (nonempty)
filename match, the number of returned attachments equals the number of
parts with a nonempty filename match, and a part whose filename attribute
is present but equal to the empty string is handled as a field, not as an
attachment (the capture `([^"]+)` cannot match an empty string, so
`filename=""` yields no filename match). -/
theorem claim_C3 :
    (∀ parts, (parseParts parts).files.length = parts.countP isAttachmentPart) ∧
    (∀ parts k, (lookupField (parseParts parts).fields k).isSome = true ↔
        ∃ p ∈ parts, isFieldPart p = true ∧ partName p = some k) ∧
    isAttachmentPart partFilenameEmpty = false ∧
    processPart { fields := [], files := [] } partFilenameEmpty =
      { fields := [(bytes "photo", bytes "hi")], files := [] } := by
  refine ⟨?_, ?_, by decide, by decide⟩
  · intro parts
    unfold parseParts
    rw [parseFold_files]
    simp [length_filterMap_attachOf]
  · intro parts k
    unfold parseParts
    rw [parseFold_fields]
    have h0 : lookupField ({ fields := [], files := [] } : ParseResult).fields k = none := rfl
    rw [h0, Option.or_none]
    constructor
    · intro hs
      obtain ⟨w, hw⟩ := Option.isSome_iff_exists.mp hs
      have hwm : w ∈ parts.filterMap (fieldEntryFor k) := by
        obtain ⟨hne, hlast⟩ := List.mem_getLast?_eq_getLast (show w ∈ _ from hw)
        rw [hlast]
        exact List.getLast_mem hne
      obtain ⟨p, hp, hfp⟩ := List.mem_filterMap.mp hwm
      exact ⟨p, hp, fieldEntryFor_isSome_iff.mp (by rw [hfp]; rfl)⟩
    · rintro ⟨p, hp, hfp, hnp⟩
      obtain ⟨v, hv⟩ :=
        Option.isSome_iff_exists.mp (fieldEntryFor_isSome_iff.mpr ⟨hfp, hnp⟩)
      have hvm : v ∈ parts.filterMap (fieldEntryFor k) :=
        List.mem_filterMap.mpr ⟨p, hp, hv⟩
      rcases hg : (parts.filterMap (fieldEntryFor k)).getLast? with _ | w
      · rw [List.getLast?_eq_none_iff] at hg
        rw [hg] at hvm
        exact absurd hvm (by simp)
      · simp

/-- Modelled from the spec (§4.1 step 6): "decode the body byte range as
UTF-8 text" — standard UTF-8 decoding of a byte sequence into a sequence of
code points, `none` on malformed input.  The source has no such decoder:
src/multipart.js line 43 decodes the whole part with the latin1 codec and
field values are substrings of that latin1 string (line 89). -/
def utf8Decode : List Nat → Option (List Nat)
  | [] => some []
  | b :: rest =>
    if b < 128 then (utf8Decode rest).map (fun cs => b :: cs)
    else if 192 ≤ b ∧ b < 224 then
      match rest with
      | c :: rest2 =>
        if 128 ≤ c ∧ c < 192 then
          (utf8Decode rest2).map (fun cs => ((b - 192) * 64 + (c - 128)) :: cs)
        else none
      | [] => none
    else if 224 ≤ b ∧ b < 240 then
      match rest with
      | c :: d :: rest3 =>
        if (128 ≤ c ∧ c < 192) ∧ (128 ≤ d ∧ d < 192) then
          (utf8Decode rest3).map
            (fun cs => ((b - 224) * 4096 + (c - 128) * 64 + (d - 128)) :: cs)
        else none
      | _ => none
    else if 240 ≤ b ∧ b < 248 then
      match rest with
      | c :: d :: e :: rest4 =>
        if (128 ≤ c ∧ c < 192) ∧ (128 ≤ d ∧ d < 192) ∧ (128 ≤ e ∧ e < 192) then
          (utf8Decode rest4).map
            (fun cs =>
              ((b - 240) * 262144 + (c - 128) * 4096 + (d - 128) * 64 + (e - 128)) :: cs)
        else none
      | _ => none
    else none

/-- The content-type header used by the concrete examples, declaring
boundary `XYZ`. -/
def ctXYZ : List Nat := bytes "multipart/form-data; boundary=XYZ"

/-- A request whose single field part has the body bytes `0xC3 0xA9` — the
UTF-8 encoding of the single code point 233 (e with acute accent). -/
def utf8FieldBuf : List Nat :=
  bytes "--XYZ\r\nContent-Disposition: form-data; name=\"species\"\r\n\r\n" ++
    [195, 169] ++ bytes "\r\n--XYZ--\r\n"

/-- Claim C4 counterexample: the parser stores the field value as the two
latin1 code points 195, 169 — the raw body bytes — whereas decoding the
body byte range as UTF-8 text, as the claim states, yields the single code
point 233.  The stored string is therefore not the UTF-8 decoding of the
body. -/
theorem claim_C4_counterexample :
    parseMultipart ctXYZ utf8FieldBuf =
      some { fields := [(bytes "species", [195, 169])], files := [] } ∧
    utf8Decode [195, 169] = some [233] ∧ ([195, 169] : List Nat) ≠ [233] := by
  refine ⟨by decide, by decide, by decide⟩

/-- Claim C4 (amended): for every part without a (nonempty) filename match,
the parser stores under the part's name the body byte range itself under
the one-byte-per-character latin1 decoding (which agrees with UTF-8 only on
ASCII bodies), with exactly one trailing CR LF pair trimmed if present
(`trimFieldVal`); when several parts share a name, the last one's value
wins. -/
theorem claim_C4_amended : ∀ parts k,
    lookupField (parseParts parts).fields k =
      (parts.filterMap (fieldEntryFor k)).getLast? := by
  intro parts k
  unfold parseParts
  rw [parseFold_fields]
  exact Option.or_none

/-! ### Claim C1: attachment bodies round-trip -/

/-- The delimiter `--XYZ` for boundary `XYZ`. -/
def ddXYZ : List Nat := [45, 45] ++ bytes "XYZ"

/-- Header line of the attachment part used for claim C1. -/
def hdrC : List Nat :=
  bytes "Content-Disposition: form-data; name=\"photo\"; filename=\"a.png\""

/-- `hdrC` without its final quote character. -/
def hdr0 : List Nat :=
  bytes "Content-Disposition: form-data; name=\"photo\"; filename=\"a.png"

/-- One attachment part as it appears between two boundary delimiters on the
wire: leading CR LF, the header line, the CR LF CR LF separator, the payload
bytes, and the wire format's trailing CR LF. -/
def attachPart (payload : List Nat) : List Nat :=
  crlf ++ (hdrC ++ (sepCrlf ++ (payload ++ crlf)))

/-- A whole multipart body holding exactly one attachment part:
`--XYZ<part>--XYZ--`. -/
def attachBuf (payload : List Nat) : List Nat :=
  ddXYZ ++ (attachPart payload ++ (ddXYZ ++ [45, 45]))

theorem trimRight_append_seed (l1 l2 : List Nat) (c : Nat)
    (hc : isJsWhite c = false) :
    ∃ X, trimRight ((l1 ++ [c]) ++ l2) = (l1 ++ [c]) ++ X := by
  unfold trimRight
  rw [List.reverse_append, List.reverse_append, List.dropWhile_append]
  by_cases he : (l2.reverse.dropWhile isJsWhite).isEmpty = true
  · rw [if_pos he]
    refine ⟨[], ?_⟩
    have h1 : ([c] : List Nat).reverse ++ l1.reverse = c :: l1.reverse := by simp
    rw [h1, List.dropWhile_cons, hc]
    simp
  · rw [if_neg he]
    refine ⟨(l2.reverse.dropWhile isJsWhite).reverse, ?_⟩
    rw [List.reverse_append]
    simp

theorem jsTrim_attachPart (payload : List Nat) :
    ∃ X, jsTrim (attachPart payload) = hdrC ++ X := by
  unfold jsTrim attachPart
  rw [List.dropWhile_append, if_pos (by decide), List.dropWhile_append,
    if_neg (by decide), show hdrC.dropWhile isJsWhite = hdrC from by decide]
  rw [show hdrC = hdr0 ++ [34] from by decide]
  exact trimRight_append_seed hdr0 _ 34 (by decide)

theorem processPart_closing (acc : ParseResult) : processPart acc [45, 45] = acc := by
  unfold processPart
  rw [if_pos]
  right
  decide

theorem getD_append_right_at (l1 l2 : List Nat) (i d : Nat) :
    (l1 ++ l2).getD (l1.length + i) d = l2.getD i d := by
  induction l1 with
  | nil => simp
  | cons x t ih =>
    have hidx : (x :: t).length + i = (t.length + i) + 1 := by
      simp only [List.length_cons]
      omega
    rw [List.cons_append, hidx, List.getD_cons_succ]
    exact ih

theorem trimAttach_payload_crlf (payload : List Nat) (hp : payload ≠ []) :
    trimAttach (payload ++ crlf) = payload := by
  unfold trimAttach
  have hl : (payload ++ crlf).length = payload.length + 2 := by simp [crlf]
  have hpos : 0 < payload.length := List.length_pos.mpr hp
  rw [if_pos]
  · rw [hl]
    have h2 : payload.length + 2 - 2 = payload.length := by omega
    rw [h2]
    exact List.take_left payload crlf
  · refine ⟨by omega, ?_, ?_⟩
    · rw [hl]
      have h2 : payload.length + 2 - 2 = payload.length + 0 := by omega
      rw [h2, getD_append_right_at]
      rfl
    · rw [hl]
      have h2 : payload.length + 2 - 1 = payload.length + 1 := by omega
      rw [h2, getD_append_right_at]
      rfl

theorem processPart_attachPart (payload : List Nat) (hp : payload ≠ [])
    (acc : ParseResult) :
    processPart acc (attachPart payload) =
      { acc with files := acc.files ++
          [{ fieldName := bytes "photo", originalName := bytes "a.png",
             body := payload }] } := by
  obtain ⟨X, hX⟩ := jsTrim_attachPart payload
  have h67 : hdrC = 67 :: hdrC.tail := by decide
  have hcond : ¬(jsTrim (attachPart payload) = [] ∨
      jsTrim (attachPart payload) = [45, 45]) := by
    rw [hX, h67]
    rintro (hc | hc) <;> simp at hc
  have hfio : firstIndexOf (attachPart payload) sepCrlf =
      some ((crlf ++ hdrC).length) := by
    have hre : attachPart payload = ((crlf ++ hdrC) ++ sepCrlf) ++ (payload ++ crlf) := by
      unfold attachPart
      simp [List.append_assoc]
    rw [hre]
    exact firstIndexOf_append_left _ (by decide) (by decide)
  have hths : (attachPart payload).take ((crlf ++ hdrC).length) = crlf ++ hdrC := by
    have hre : attachPart payload = (crlf ++ hdrC) ++ (sepCrlf ++ (payload ++ crlf)) := by
      unfold attachPart
      simp [List.append_assoc]
    rw [hre, List.take_left]
  have hbody : (attachPart payload).drop ((crlf ++ hdrC).length + 4) = payload ++ crlf := by
    have hre : attachPart payload = ((crlf ++ hdrC) ++ sepCrlf) ++ (payload ++ crlf) := by
      unfold attachPart
      simp [List.append_assoc]
    have hlen : ((crlf ++ hdrC) ++ sepCrlf).length = (crlf ++ hdrC).length + 4 := by decide
    rw [hre, ← hlen, List.drop_left]
  have hne : bytes "a.png" ≠ [] := by decide
  unfold processPart
  rw [if_neg hcond, hfio]
  simp only [hths, hbody,
    show matchQuoted (bytes "name=\"") (crlf ++ hdrC) = some (bytes "photo") from by decide,
    show matchQuoted (bytes "filename=\"") (crlf ++ hdrC) = some (bytes "a.png") from by decide,
    ne_eq, hne, not_false_iff, if_true,
    trimAttach_payload_crlf payload hp]

/-- Claim C1 (amended): for every *nonempty* payload of N ≥ 1 arbitrary
bytes — which may contain CR LF pairs and boundary-like substrings, as long
as the exact delimiter `--XYZ` does not occur anywhere in the part region —
the parser returns exactly one attachment whose body is exactly those N
bytes: the body is sliced from the original buffer and the single trailing
CR LF pair is removed.  The restriction to N ≥ 1 is forced by the source:
the trim at src/multipart.js line 72 requires `bodyBuf.length > 2`, so a
zero-byte payload's raw body (exactly the CR LF terminator, length 2) is
not trimmed (see the counterexample). -/
theorem claim_C1_amended (payload : List Nat) (hp : payload ≠ [])
    (hocc : ∀ i, i < (attachPart payload).length →
      ddXYZ.isPrefixOf ((attachPart payload ++ (ddXYZ ++ [45, 45])).drop i) = false) :
    parseMultipart ctXYZ (attachBuf payload) =
      some { fields := [],
             files := [{ fieldName := bytes "photo", originalName := bytes "a.png",
                         body := payload }] } := by
  have hmb : matchBoundary ctXYZ = some (bytes "XYZ") := by decide
  unfold parseMultipart
  rw [hmb]
  show some (parseParts (splitBuffer (attachBuf payload) ddXYZ)) = _
  have hsplit : splitBuffer (attachBuf payload) ddXYZ = [attachPart payload, [45, 45]] := by
    unfold attachBuf
    rw [splitBuffer_delim_first _ (by decide)]
    have hfio2 : firstIndexOf (attachPart payload ++ (ddXYZ ++ [45, 45])) ddXYZ =
        some (attachPart payload).length := by
      apply firstIndexOf_eq_some_of
      · rw [List.drop_left]
        exact isPrefixOf_append_self _ _
      · exact hocc
    rw [splitBuffer_eq_some (by decide) hfio2]
    have hpos : 0 < (attachPart payload).length := by
      unfold attachPart
      simp [crlf]
    rw [if_pos hpos, List.take_left]
    have hdrop : (attachPart payload ++ (ddXYZ ++ [45, 45])).drop
        ((attachPart payload).length + ddXYZ.length) = [45, 45] := by
      have hre : attachPart payload ++ (ddXYZ ++ [45, 45]) =
          (attachPart payload ++ ddXYZ) ++ [45, 45] := by
        simp [List.append_assoc]
      have hlen : (attachPart payload ++ ddXYZ).length =
          (attachPart payload).length + ddXYZ.length := List.length_append _ _
      rw [hre, ← hlen, List.drop_left]
    rw [hdrop, splitBuffer_eq_none (firstIndexOf_too_long (by decide))]
    rfl
  rw [hsplit]
  unfold parseParts
  simp only [List.foldl_cons, List.foldl_nil]
  rw [processPart_attachPart payload hp, processPart_closing]
  simp

/-- Claim C1 witness: a concrete 14-byte payload containing an embedded
CR LF and the boundary-like substrings `--XY` and `-XYZ` (neither equal to
the delimiter `--XYZ`) parses back byte-identically. -/
theorem claim_C1_witness :
    bytes "AB\r\n--XY-XYZ Z" ≠ [] ∧
    parseMultipart ctXYZ (attachBuf (bytes "AB\r\n--XY-XYZ Z")) =
      some { fields := [],
             files := [{ fieldName := bytes "photo", originalName := bytes "a.png",
                         body := bytes "AB\r\n--XY-XYZ Z" }] } :=
  ⟨by decide, claim_C1_amended (bytes "AB\r\n--XY-XYZ Z") (by decide) (by decide)⟩

/-- Claim C1 counterexample: for N = 0 bytes of payload the wire body is
exactly the CR LF terminator; `bodyBuf.length > 2` fails, the terminator is
not trimmed, and the returned attachment body is the two bytes CR LF rather
than the empty payload the claim requires. -/
theorem claim_C1_counterexample :
    parseMultipart ctXYZ (attachBuf []) =
      some { fields := [],
             files := [{ fieldName := bytes "photo", originalName := bytes "a.png",
                         body := [13, 10] }] } ∧
    ([13, 10] : List Nat) ≠ [] :=
  ⟨by decide, by decide⟩

/-! ### The JSON-file database layer (src/db.js)

The dataset lives in one JSON document; its JavaScript object shapes are
modelled as structures.  ISO timestamp strings are modelled as abstract
instants (`Nat`); the source only ever copies and compares them. -/

/-- A league member (src/db.js lines 28-39). -/
structure Member where
  id : Nat
  name : List Nat
  deriving DecidableEq

/-- One matchup of a week (src/db.js lines 43-86). -/
structure Matchup where
  m1 : Nat
  m2 : Nat
  deriving DecidableEq

/-- One scheduled week; `status` is one of the strings `completed`,
`active`, `upcoming`. -/
structure Week where
  week : Nat
  status : List Nat
  matchups : List Matchup
  deriving DecidableEq

/-- A stored submission (src/db.js lines 204-209).  `resubmittedAt` and
`previousSubmittedAt` are absent on first insertion and stamped on
replacement (lines 211-212). -/
structure Submission where
  id : List Nat
  week : Nat
  memberId : Nat
  species : List Nat
  description : List Nat
  mediaFiles : List (List Nat)
  submittedAt : Nat
  resubmittedAt : Option Nat
  previousSubmittedAt : Option Nat
  deriving DecidableEq

/-- A stored judgment.  `getStandings` (src/db.js lines 259-266) reads only
`m1Id`, `m2Id` and `winner`; the judging module stores `winner` as the
string `"m1"`, the string `"m2"`, or `null` when no pick could be parsed
from the judge response (src/judge.js line 270, `claudePick` may be null).
`payload` stands for the remaining pass-through attributes (per-judge
arguments, summary, `judgedAt`, …), opaque to the store. -/
structure Judgment where
  week : Nat
  m1Id : Nat
  m2Id : Nat
  winner : Option (List Nat)
  payload : List Nat
  deriving DecidableEq

/-- The full dataset `{ members, schedule, submissions, judgments }`. -/
structure Db where
  members : List Member
  schedule : List Week
  submissions : List Submission
  judgments : List Judgment
  deriving DecidableEq

/-- The seed members (src/db.js lines 28-39). -/
def MEMBERS : List Member :=
  [⟨1, bytes "Matthew"⟩, ⟨2, bytes "Trevor & Katie"⟩, ⟨3, bytes "Marshall"⟩,
   ⟨4, bytes "Dara"⟩, ⟨5, bytes "Anna"⟩, ⟨6, bytes "Leo & Taylor"⟩,
   ⟨7, bytes "Jack"⟩, ⟨8, bytes "Emily"⟩, ⟨9, bytes "Grace"⟩, ⟨10, bytes "Ben"⟩]

/-- The seed schedule (src/db.js lines 43-86). -/
def SCHEDULE : List Week :=
  [⟨1, bytes "completed", [⟨2, 1⟩, ⟨3, 6⟩, ⟨4, 7⟩, ⟨5, 8⟩, ⟨10, 9⟩]⟩,
   ⟨2, bytes "completed", [⟨1, 6⟩, ⟨2, 7⟩, ⟨3, 8⟩, ⟨4, 9⟩, ⟨5, 10⟩]⟩,
   ⟨3, bytes "active", [⟨6, 7⟩, ⟨1, 8⟩, ⟨2, 9⟩, ⟨3, 10⟩, ⟨4, 5⟩]⟩,
   ⟨4, bytes "upcoming", [⟨1, 3⟩, ⟨2, 4⟩, ⟨5, 6⟩, ⟨7, 9⟩, ⟨8, 10⟩]⟩,
   ⟨5, bytes "upcoming", [⟨1, 4⟩, ⟨2, 3⟩, ⟨5, 7⟩, ⟨6, 10⟩, ⟨8, 9⟩]⟩,
   ⟨6, bytes "upcoming", [⟨1, 5⟩, ⟨2, 6⟩, ⟨3, 9⟩, ⟨4, 8⟩, ⟨7, 10⟩]⟩]

/-- `defaultDb` (src/db.js lines 88-95): seed members and schedule, empty
submissions and judgments. -/
def defaultDb : Db :=
  { members := MEMBERS, schedule := SCHEDULE, submissions := [], judgments := [] }

/-- Code points of the decimal representation of a number, as produced by
JavaScript template interpolation. -/
def bytesOfNat (n : Nat) : List Nat := (toString n).data.map Char.toNat

/-- The deterministic submission id `` `sub-w${week}-m${memberId}` ``
(src/db.js line 205). -/
def subId (week memberId : Nat) : List Nat :=
  bytes "sub-w" ++ bytesOfNat week ++ bytes "-m" ++ bytesOfNat memberId

/-- The `findIndex` predicate of src/db.js lines 201-203:
`s.week === week && s.memberId === memberId`. -/
def subKeyMatch (week memberId : Nat) (s : Submission) : Bool :=
  s.week == week && s.memberId == memberId

/-- `Array.prototype.findIndex`: index of the first element satisfying the
predicate, `none` for the return value `-1`. -/
def jsFindIndex (p : α → Bool) : List α → Option Nat
  | [] => none
  | x :: t => if p x then some 0 else (jsFindIndex p t).map (· + 1)

/-- `upsertSubmission` (src/db.js lines 199-219) as a transformation of the
dataset, returning the new dataset and the stored entry.  The surrounding
`read()`/`write(db)` persistence is the Store layer below; the two
`new Date().toISOString()` calls during one invocation are the single
modelled instant `now`; `mediaFiles || []` is `Option.getD`.  When
`findIndex` returns an index it is in range, so the `getD` default is never
used. -/
def upsertSubmission (db : Db) (week memberId : Nat) (species description : List Nat)
    (mediaFiles : Option (List (List Nat))) (now : Nat) : Db × Submission :=
  let entry : Submission :=
    { id := subId week memberId, week := week, memberId := memberId,
      species := species, description := description,
      mediaFiles := mediaFiles.getD [], submittedAt := now,
      resubmittedAt := none, previousSubmittedAt := none }
  match jsFindIndex (subKeyMatch week memberId) db.submissions with
  | some idx =>
    let entry2 := { entry with
      resubmittedAt := some now,
      previousSubmittedAt := some ((db.submissions.getD idx entry).submittedAt) }
    ({ db with submissions := db.submissions.set idx entry2 }, entry2)
  | none =>
    ({ db with submissions := db.submissions ++ [entry] }, entry)

theorem jsFindIndex_none_spec {p : α → Bool} {l : List α}
    (h : jsFindIndex p l = none) : ∀ y ∈ l, p y = false := by
  induction l with
  | nil => simp
  | cons x t ih =>
    unfold jsFindIndex at h
    by_cases hx : p x = true
    · rw [if_pos hx] at h
      exact absurd h (by simp)
    · rw [if_neg hx] at h
      intro y hy
      rcases hy with _ | hy
      · simpa using hx
      · exact ih (by simpa using h) y (by assumption)

theorem jsFindIndex_some_decomp {p : α → Bool} {l : List α} {i : Nat}
    (h : jsFindIndex p l = some i) :
    ∃ a x b, l = a ++ x :: b ∧ a.length = i ∧ p x = true ∧ ∀ y ∈ a, p y = false := by
  induction l generalizing i with
  | nil => simp [jsFindIndex] at h
  | cons z t ih =>
    unfold jsFindIndex at h
    by_cases hz : p z = true
    · rw [if_pos hz] at h
      cases h
      exact ⟨[], z, t, rfl, rfl, hz, by simp⟩
    · rw [if_neg hz] at h
      simp only [Option.map_eq_some'] at h
      obtain ⟨j, hj, rfl⟩ := h
      obtain ⟨a, x, b, hl, hlen, hx, ha⟩ := ih hj
      refine ⟨z :: a, x, b, by rw [hl]; rfl, by simp [hlen], hx, ?_⟩
      intro y hy
      rcases hy with _ | hy
      · simpa using hz
      · exact ha y (by assumption)

theorem jsFindIndex_append_cons {p : α → Bool} {a : List α} {x : α} (b : List α)
    (ha : ∀ y ∈ a, p y = false) (hx : p x = true) :
    jsFindIndex p (a ++ x :: b) = some a.length := by
  induction a with
  | nil => simp [jsFindIndex, hx]
  | cons z t ih =>
    have hz : p z = false := ha z (by simp)
    rw [List.cons_append]
    unfold jsFindIndex
    rw [if_neg (by simp [hz])]
    rw [ih (fun y hy => ha y (by simp [hy]))]
    rfl

theorem getD_append_cons (a : List α) (x : α) (b : List α) (d : α) :
    (a ++ x :: b).getD a.length d = x := by
  induction a with
  | nil => rfl
  | cons z t ih => simpa using ih

theorem set_append_cons (a : List α) (x e : α) (b : List α) :
    (a ++ x :: b).set a.length e = a ++ e :: b := by
  induction a with
  | nil => rfl
  | cons z t ih => simp [List.set, ih]

theorem upsertSubmission_of_none {db : Db} {week memberId : Nat}
    {sp d : List Nat} {mf : Option (List (List Nat))} {t : Nat}
    (hf : jsFindIndex (subKeyMatch week memberId) db.submissions = none) :
    upsertSubmission db week memberId sp d mf t =
      ({ db with submissions := db.submissions ++
          [{ id := subId week memberId, week := week, memberId := memberId,
             species := sp, description := d, mediaFiles := mf.getD [],
             submittedAt := t, resubmittedAt := none, previousSubmittedAt := none }] },
       { id := subId week memberId, week := week, memberId := memberId,
         species := sp, description := d, mediaFiles := mf.getD [],
         submittedAt := t, resubmittedAt := none, previousSubmittedAt := none }) := by
  unfold upsertSubmission
  rw [hf]

theorem upsertSubmission_of_some {db : Db} {week memberId : Nat}
    {sp d : List Nat} {mf : Option (List (List Nat))} {t : Nat} {idx : Nat}
    (hf : jsFindIndex (subKeyMatch week memberId) db.submissions = some idx) :
    upsertSubmission db week memberId sp d mf t =
      ({ db with submissions := (db.submissions.set idx
          { id := subId week memberId, week := week, memberId := memberId,
            species := sp, description := d, mediaFiles := mf.getD [],
            submittedAt := t, resubmittedAt := some t,
            previousSubmittedAt := some ((db.submissions.getD idx
              { id := subId week memberId, week := week, memberId := memberId,
                species := sp, description := d, mediaFiles := mf.getD [],
                submittedAt := t, resubmittedAt := none,
                previousSubmittedAt := none }).submittedAt) }) },
       { id := subId week memberId, week := week, memberId := memberId,
         species := sp, description := d, mediaFiles := mf.getD [],
         submittedAt := t, resubmittedAt := some t,
         previousSubmittedAt := some ((db.submissions.getD idx
           { id := subId week memberId, week := week, memberId := memberId,
             species := sp, description := d, mediaFiles := mf.getD [],
             submittedAt := t, resubmittedAt := none,
             previousSubmittedAt := none }).submittedAt) }) := by
  unfold upsertSubmission
  rw [hf]

/-- Claim C2: upserting twice for the same (week, member) key — starting
from any dataset respecting the at-most-one-per-key invariant — leaves
exactly one stored Submission for that key, whose `previousSubmittedAt` is
the first call's `submittedAt` timestamp and whose `resubmittedAt` is the
second call's timestamp. -/
theorem claim_C2 (db : Db) (week memberId : Nat)
    (sp1 d1 : List Nat) (mf1 : Option (List (List Nat))) (t1 : Nat)
    (sp2 d2 : List Nat) (mf2 : Option (List (List Nat))) (t2 : Nat)
    (hinv : (db.submissions.filter (subKeyMatch week memberId)).length ≤ 1) :
    (upsertSubmission (upsertSubmission db week memberId sp1 d1 mf1 t1).1
        week memberId sp2 d2 mf2 t2).1.submissions.filter (subKeyMatch week memberId) =
      [(upsertSubmission (upsertSubmission db week memberId sp1 d1 mf1 t1).1
          week memberId sp2 d2 mf2 t2).2] ∧
    (upsertSubmission (upsertSubmission db week memberId sp1 d1 mf1 t1).1
        week memberId sp2 d2 mf2 t2).2.previousSubmittedAt = some t1 ∧
    (upsertSubmission (upsertSubmission db week memberId sp1 d1 mf1 t1).1
        week memberId sp2 d2 mf2 t2).2.resubmittedAt = some t2 := by
  rcases hf : jsFindIndex (subKeyMatch week memberId) db.submissions with _ | idx
  · -- no prior entry: the first call appends, the second replaces it
    have hall := jsFindIndex_none_spec hf
    rw [upsertSubmission_of_none hf]
    have hf2 : jsFindIndex (subKeyMatch week memberId)
        (({ db with submissions := db.submissions ++
            [{ id := subId week memberId, week := week, memberId := memberId,
               species := sp1, description := d1, mediaFiles := mf1.getD [],
               submittedAt := t1, resubmittedAt := none,
               previousSubmittedAt := none }] } : Db)).submissions =
        some db.submissions.length := by
      exact jsFindIndex_append_cons [] hall (by simp [subKeyMatch])
    rw [upsertSubmission_of_some hf2]
    simp only [getD_append_cons, set_append_cons]
    refine ⟨?_, trivial, trivial⟩
    rw [List.filter_append]
    have hnil : db.submissions.filter (subKeyMatch week memberId) = [] := by
      rw [List.filter_eq_nil_iff]
      intro y hy
      simp [hall y hy]
    rw [hnil, List.filter_cons_of_pos (by simp [subKeyMatch])]
    rfl
  · -- a prior entry exists: both calls replace in place
    obtain ⟨a, x, b, hl, hlen, hx, ha⟩ := jsFindIndex_some_decomp hf
    have hfa : a.filter (subKeyMatch week memberId) = [] := by
      rw [List.filter_eq_nil_iff]
      intro y hy
      simp [ha y hy]
    have hfb : b.filter (subKeyMatch week memberId) = [] := by
      have hdb : db.submissions.filter (subKeyMatch week memberId) =
          x :: b.filter (subKeyMatch week memberId) := by
        rw [hl, List.filter_append, hfa, List.filter_cons_of_pos hx]
        rfl
      rw [hdb] at hinv
      simp only [List.length_cons] at hinv
      have : (b.filter (subKeyMatch week memberId)).length = 0 := by omega
      exact List.eq_nil_of_length_eq_zero this
    rw [upsertSubmission_of_some hf]
    simp only [hl, ← hlen, getD_append_cons, set_append_cons]
    have hf2 : jsFindIndex (subKeyMatch week memberId)
        (({ db with submissions := a ++
            { id := subId week memberId, week := week, memberId := memberId,
              species := sp1, description := d1, mediaFiles := mf1.getD [],
              submittedAt := t1, resubmittedAt := some t1,
              previousSubmittedAt := some x.submittedAt } :: b } : Db)).submissions =
        some a.length := by
      show jsFindIndex (subKeyMatch week memberId) (a ++ _ :: b) = _
      exact jsFindIndex_append_cons b ha (by simp [subKeyMatch])
    rw [upsertSubmission_of_some hf2]
    simp only [getD_append_cons, set_append_cons]
    refine ⟨?_, trivial, trivial⟩
    rw [List.filter_append, hfa, List.filter_cons_of_pos (by simp [subKeyMatch]), hfb]
    rfl

/-- Claim C2 witness at a concrete dataset and key. -/
theorem claim_C2_witness :
    (upsertSubmission (upsertSubmission defaultDb 3 1 (bytes "Bald Eagle") (bytes "river")
          none 100).1 3 1 (bytes "Osprey") (bytes "lake") none 200).1.submissions.filter
        (subKeyMatch 3 1) =
      [(upsertSubmission (upsertSubmission defaultDb 3 1 (bytes "Bald Eagle") (bytes "river")
          none 100).1 3 1 (bytes "Osprey") (bytes "lake") none 200).2] ∧
    (upsertSubmission (upsertSubmission defaultDb 3 1 (bytes "Bald Eagle") (bytes "river")
        none 100).1 3 1 (bytes "Osprey") (bytes "lake") none 200).2.previousSubmittedAt =
      some 100 ∧
    (upsertSubmission (upsertSubmission defaultDb 3 1 (bytes "Bald Eagle") (bytes "river")
        none 100).1 3 1 (bytes "Osprey") (bytes "lake") none 200).2.resubmittedAt =
      some 200 :=
  claim_C2 defaultDb 3 1 (bytes "Bald Eagle") (bytes "river") none 100
    (bytes "Osprey") (bytes "lake") none 200 (by decide)

/-! ### The on-disk store: primary file and rotating backups -/

/-- Contents of a store file: either content that `JSON.parse` accepts,
projected to the dataset it denotes (`JSON.stringify` is deterministic, so
two such files are byte-identical exactly when their datasets are equal),
or content on which `JSON.parse` throws. -/
inductive FileData where
  | db (d : Db)
  | raw (b : List Nat)
  deriving DecidableEq

/-- The on-disk state owned by src/db.js: the primary `db.json` (`none` when
missing) and the backup directory, a file-name-to-contents map
modelled as an association list (a real directory has distinct names). -/
structure Store where
  primary : Option FileData
  backups : List (List Nat × FileData)
  deriving DecidableEq

/-- src/db.js line 17. -/
def MAX_BACKUPS : Nat := 30

/-- `` `db-${timestamp}.json` `` (src/db.js line 103), where `ts` is the
ISO timestamp with `:` and `.` already replaced by `-`. -/
def backupFileName (ts : List Nat) : List Nat :=
  bytes "db-" ++ ts ++ bytes ".json"

/-- The backup-listing filter of src/db.js line 108:
`f.startsWith("db-") && f.endsWith(".json")`. -/
def isBackupName (f : List Nat) : Bool :=
  (bytes "db-").isPrefixOf f && (bytes ".json").isSuffixOf f

/-- `fs.copyFileSync` into the backup directory: overwrite the file of that
name if present, otherwise create it. -/
def setFile (fs : List (List Nat × FileData)) (name : List Nat) (c : FileData) :
    List (List Nat × FileData) :=
  if fs.any (fun e => e.1 == name) then
    fs.map (fun e => if e.1 == name then (name, c) else e)
  else fs ++ [(name, c)]

/-- `fs.existsSync` + `fs.readFileSync` on the backup directory. -/
def lookupFile (fs : List (List Nat × FileData)) (name : List Nat) :
    Option FileData :=
  (fs.find? (fun e => e.1 == name)).map (fun e => e.2)

/-- JavaScript's default `Array.prototype.sort()` comparator on strings:
lexicographic comparison of code-unit sequences. -/
def lexLe : List Nat → List Nat → Bool
  | [], _ => true
  | _ :: _, [] => false
  | a :: as, b :: bs => if a < b then true else if b < a then false else lexLe as bs

/-- `names.sort()`: a sort of the name list under the default string
comparator (JavaScript guarantees the result is ordered by the comparator;
modelled by insertion sort). -/
def sortNames (l : List (List Nat)) : List (List Nat) :=
  List.insertionSort (fun a b => lexLe a b = true) l

/-- `createBackup` (src/db.js lines 99-120): when the primary exists, copy
it into the backup directory under the timestamp-derived name; then prune:
take the directory listing, keep names matching `db-*.json`, sort and
reverse (newest first), and `unlinkSync` every name past the first
`MAX_BACKUPS`.  The fresh timestamp is the parameter `ts`; the filesystem
errors swallowed by the `catch` at line 117 have no counterpart in this
pure model. -/
def createBackup (ts : List Nat) (st : Store) : Store :=
  match st.primary with
  | none => st
  | some content =>
    let files1 := setFile st.backups (backupFileName ts) content
    let sorted := (sortNames ((files1.map Prod.fst).filter isBackupName)).reverse
    if MAX_BACKUPS < sorted.length then
      { st with backups := ((sorted.drop MAX_BACKUPS).foldl
          (fun fs f => fs.filter (fun e => !(e.1 == f))) files1) }
    else { st with backups := files1 }

/-- `write(db)` (src/db.js lines 161-165): snapshot the current primary,
then overwrite the primary with the serialized dataset. -/
def write (ts : List Nat) (d : Db) (st : Store) : Store :=
  { createBackup ts st with primary := some (FileData.db d) }

/-- `read()` (src/db.js lines 150-159): parse the primary;
on a missing file or a parse failure, fall back to `defaultDb`, persist it
with `write` and return it.  Every public accessor of the module calls
`read()` first.  `ts` is the timestamp a fallback write would use. -/
def read (st : Store) (ts : List Nat) : Store × Db :=
  match st.primary with
  | some (FileData.db d) => (st, d)
  | _ => (write ts defaultDb st, defaultDb)

/-- Result of `restoreBackup`: `notFound` models the `null` return,
`restored` the parsed dataset, `parseError` a `JSON.parse` throw. -/
inductive RestoreResult where
  | notFound
  | restored (d : Db)
  | parseError
  deriving DecidableEq

/-- `restoreBackup(backupName)` (src/db.js lines 137-146): unknown name →
return `null` without touching anything; otherwise snapshot the current
primary first (line 140), then parse the named backup and write the parsed
dataset over the primary.  An unparseable backup throws after that
snapshot. -/
def restoreBackup (st : Store) (backupName ts : List Nat) : Store × RestoreResult :=
  match lookupFile st.backups backupName with
  | none => (st, RestoreResult.notFound)
  | some (FileData.raw _) => (createBackup ts st, RestoreResult.parseError)
  | some (FileData.db d) =>
    ({ createBackup ts st with primary := some (FileData.db d) },
      RestoreResult.restored d)

/-- Claim C8: `restoreBackup` with a name that matches no backup file
returns the absent result and performs no write at all — the store, and in
particular the primary file's content, is byte-identical to before the
call. -/
theorem claim_C8 (st : Store) (backupName ts : List Nat)
    (h : lookupFile st.backups backupName = none) :
    restoreBackup st backupName ts = (st, RestoreResult.notFound) := by
  unfold restoreBackup
  rw [h]

/-- Claim C8 witness on a concrete store. -/
theorem claim_C8_witness :
    restoreBackup { primary := some (FileData.db defaultDb), backups := [] }
        (bytes "db-nope.json") [] =
      ({ primary := some (FileData.db defaultDb), backups := [] },
        RestoreResult.notFound) :=
  claim_C8 _ _ _ rfl

/-- Claim C9: whenever the primary store file is missing or fails to
deserialize, `read` — the entry point of every read operation of the
module — returns the freshly initialized default dataset (seed members and
schedule, empty submissions and judgments) and persists that dataset to the
primary file. -/
theorem claim_C9 (st : Store) (ts : List Nat)
    (h : st.primary = none ∨ ∃ b, st.primary = some (FileData.raw b)) :
    (read st ts).2 = defaultDb ∧
    (read st ts).1.primary = some (FileData.db defaultDb) ∧
    defaultDb.submissions = [] ∧ defaultDb.judgments = [] := by
  rcases h with h | ⟨b, h⟩ <;>
  · unfold read
    rw [h]
    exact ⟨rfl, rfl, rfl, rfl⟩

/-- Claim C9 witness: a store with no primary file. -/
theorem claim_C9_witness :
    (read { primary := none, backups := [] } (bytes "T1")).2 = defaultDb ∧
    (read { primary := none, backups := [] } (bytes "T1")).1.primary =
      some (FileData.db defaultDb) ∧
    defaultDb.submissions = [] ∧ defaultDb.judgments = [] :=
  claim_C9 { primary := none, backups := [] } (bytes "T1") (Or.inl rfl)

/-! ### Claim C5: backup rotation keeps the newest `MAX_BACKUPS` files -/

theorem lexLe_refl (a : List Nat) : lexLe a a = true := by
  induction a with
  | nil => rfl
  | cons x t ih =>
    unfold lexLe
    simp [ih]

theorem lexLe_total (a b : List Nat) : lexLe a b = true ∨ lexLe b a = true := by
  induction a generalizing b with
  | nil => left; rfl
  | cons x t ih =>
    cases b with
    | nil => right; rfl
    | cons y s =>
      unfold lexLe
      by_cases hxy : x < y
      · left
        rw [if_pos hxy]
      · by_cases hyx : y < x
        · right
          rw [if_pos hyx]
        · have hxe : x = y := by omega
          subst hxe
          rw [if_neg hxy, if_neg hxy, if_neg hxy, if_neg hxy]
          exact ih s

theorem lexLe_trans {a b c : List Nat} (h1 : lexLe a b = true)
    (h2 : lexLe b c = true) : lexLe a c = true := by
  induction a generalizing b c with
  | nil => rfl
  | cons x t ih =>
    cases b with
    | nil => simp [lexLe] at h1
    | cons y s =>
      cases c with
      | nil => simp [lexLe] at h2
      | cons z u =>
        unfold lexLe at h1 h2 ⊢
        by_cases hxy : x < y
        · by_cases hyz : y < z
          · rw [if_pos (Nat.lt_trans hxy hyz)]
          · by_cases hzy : z < y
            · rw [if_neg hyz, if_pos hzy] at h2
              exact absurd h2 (by simp)
            · have hye : y = z := by omega
              subst hye
              rw [if_pos hxy]
        · by_cases hyx : y < x
          · rw [if_neg hxy, if_pos hyx] at h1
            exact absurd h1 (by simp)
          · have hxe : x = y := by omega
            subst hxe
            rw [if_neg hxy] at h1
            rw [if_neg hxy] at h1
            by_cases hxz : x < z
            · rw [if_pos hxz]
            · by_cases hzx : z < x
              · rw [if_neg hxz, if_pos hzx] at h2
                exact absurd h2 (by simp)
              · have hxe2 : x = z := by omega
                subst hxe2
                rw [if_neg hxz] at h2 ⊢
                rw [if_neg hxz] at h2 ⊢
                exact ih h1 h2

instance lexLeRelTotal : IsTotal (List Nat) (fun a b => lexLe a b = true) :=
  ⟨lexLe_total⟩

instance lexLeRelTrans : IsTrans (List Nat) (fun a b => lexLe a b = true) :=
  ⟨fun _ _ _ => lexLe_trans⟩

theorem any_fst_beq_iff {fs : List (List Nat × FileData)} {n : List Nat} :
    fs.any (fun e => e.1 == n) = true ↔ n ∈ fs.map Prod.fst := by
  rw [List.any_eq_true]
  constructor
  · rintro ⟨e, he, hbeq⟩
    have : e.1 = n := by simpa using hbeq
    rw [← this]
    exact List.mem_map_of_mem Prod.fst he
  · intro hm
    obtain ⟨e, he, hfst⟩ := List.mem_map.mp hm
    exact ⟨e, he, by simp [hfst]⟩

theorem setFile_of_fresh {fs : List (List Nat × FileData)} {n : List Nat}
    (h : n ∉ fs.map Prod.fst) (c : FileData) : setFile fs n c = fs ++ [(n, c)] := by
  unfold setFile
  rw [if_neg]
  intro hc
  exact h (any_fst_beq_iff.mp hc)

theorem isBackupName_backupFileName (ts : List Nat) :
    isBackupName (backupFileName ts) = true := by
  unfold isBackupName backupFileName
  rw [Bool.and_eq_true]
  constructor
  · rw [List.append_assoc]
    exact isPrefixOf_append_self _ _
  · show ((bytes ".json").reverse.isPrefixOf
      (bytes "db-" ++ ts ++ bytes ".json").reverse) = true
    rw [List.reverse_append]
    exact isPrefixOf_append_self _ _

theorem filter_map_fst_comm (fs : List (List Nat × FileData)) (n : List Nat) :
    (fs.filter (fun e => !(e.1 == n))).map Prod.fst =
      (fs.map Prod.fst).filter (fun m => !(m == n)) := by
  induction fs with
  | nil => rfl
  | cons e t ih =>
    by_cases he : (e.1 == n) = true
    · rw [List.filter_cons_of_neg (by simp [he]), List.map_cons,
        List.filter_cons_of_neg (by simp [he])]
      exact ih
    · rw [List.filter_cons_of_pos (by simp [he]), List.map_cons, List.map_cons,
        List.filter_cons_of_pos (by simp [he])]
      rw [ih]

theorem filter_length_remove_one {l : List (List Nat)} {x : List Nat}
    (hnd : l.Nodup) (hx : x ∈ l) :
    (l.filter (fun m => !(m == x))).length + 1 = l.length := by
  induction l with
  | nil => simp at hx
  | cons y t ih =>
    rcases List.nodup_cons.mp hnd with ⟨hyt, hnt⟩
    rcases hx with _ | hx
    · rw [List.filter_cons_of_neg (by simp)]
      have : t.filter (fun m => !(m == x)) = t := by
        rw [List.filter_eq_self]
        intro a ha
        simp
        intro hax
        rw [hax] at ha
        exact hyt ha
      rw [this]
      rfl
    · have hyx : (y == x) = false := by
        simp
        intro hc
        rw [hc] at hyt
        exact hyt (by assumption)
      rw [List.filter_cons_of_pos (by simp [hyx])]
      simp only [List.length_cons]
      rw [← ih hnt (by assumption)]

/-- Claim C5: one store write starting from a full backup directory — the
primary present, exactly `MAX_BACKUPS` (30) backup files, the timestamp's
name fresh — leaves exactly `MAX_BACKUPS` backup files, and the file
deleted is the oldest: every name dropped precedes every kept name in the
lexicographic order of the timestamp-derived names. -/
theorem claim_C5 (st : Store) (ts : List Nat) (d : Db) (c : FileData)
    (h1 : st.primary = some c)
    (h2 : (st.backups.map Prod.fst).Nodup)
    (h3 : ((st.backups.map Prod.fst).filter isBackupName).length = MAX_BACKUPS)
    (h4 : backupFileName ts ∉ st.backups.map Prod.fst) :
    (((write ts d st).backups.map Prod.fst).filter isBackupName).length = MAX_BACKUPS ∧
    ∀ f ∈ (st.backups.map Prod.fst).filter isBackupName ++ [backupFileName ts],
      f ∉ ((write ts d st).backups.map Prod.fst).filter isBackupName →
      ∀ g ∈ (st.backups.map Prod.fst).filter isBackupName ++ [backupFileName ts],
        g ∈ ((write ts d st).backups.map Prod.fst).filter isBackupName →
        lexLe f g = true := by
  have hwb : (write ts d st).backups = (createBackup ts st).backups := rfl
  -- the names after copying the new backup in
  have hfiles1 : setFile st.backups (backupFileName ts) c =
      st.backups ++ [(backupFileName ts, c)] := setFile_of_fresh h4 c
  have hnames1 : ((st.backups ++ [(backupFileName ts, c)]).map Prod.fst) =
      st.backups.map Prod.fst ++ [backupFileName ts] := by
    rw [List.map_append]
    rfl
  have hfilter1 : (st.backups.map Prod.fst ++ [backupFileName ts]).filter isBackupName =
      (st.backups.map Prod.fst).filter isBackupName ++ [backupFileName ts] := by
    rw [List.filter_append]
    rw [List.filter_cons_of_pos (isBackupName_backupFileName ts)]
    rfl
  set all31 := (st.backups.map Prod.fst).filter isBackupName ++ [backupFileName ts] with hall31
  have hlen31 : all31.length = MAX_BACKUPS + 1 := by
    rw [hall31, List.length_append, h3]
    rfl
  -- the ascending sort of the 31 names
  have hperm : List.Perm (sortNames all31) all31 := List.perm_insertionSort _ all31
  have hsorted : List.Sorted (fun a b => lexLe a b = true) (sortNames all31) :=
    List.sorted_insertionSort _ all31
  have hlen : (sortNames all31).length = MAX_BACKUPS + 1 := by
    rw [hperm.length_eq, hlen31]
  rcases hasc : sortNames all31 with _ | ⟨oldest, others⟩
  · rw [hasc] at hlen
    simp at hlen
  · rw [hasc] at hperm hsorted hlen
    have hothers : others.length = MAX_BACKUPS := by
      simp only [List.length_cons] at hlen
      omega
    -- the reversed (newest-first) list drops exactly the oldest name
    have hdrop : ((oldest :: others).reverse).drop MAX_BACKUPS = [oldest] := by
      rw [List.reverse_cons, ← hothers]
      rw [← List.length_reverse]
      exact List.drop_left _ _
    have hnodup31 : all31.Nodup := by
      rw [hall31]
      have hnodupf : ((st.backups.map Prod.fst).filter isBackupName).Nodup :=
        h2.filter _
      have hnot : backupFileName ts ∉ (st.backups.map Prod.fst).filter isBackupName := by
        intro hc
        exact h4 (List.mem_of_mem_filter hc)
      simp [List.nodup_append, hnodupf, hnot]
    have holdest : oldest ∈ all31 := hperm.mem_iff.mp (by simp)
    -- compute the store after the write
    have hcb : (createBackup ts st).backups =
        (st.backups ++ [(backupFileName ts, c)]).filter
          (fun e => !(e.1 == oldest)) := by
      unfold createBackup
      rw [h1]
      simp only [hfiles1]
      rw [show ((st.backups ++ [(backupFileName ts, c)]).map Prod.fst).filter isBackupName
          = all31 from by rw [hnames1, hfilter1, hall31]]
      rw [hasc]
      rw [if_pos (by rw [List.length_reverse]; simp only [List.length_cons]; omega)]
      rw [hdrop]
      rfl
    have hkept : ((write ts d st).backups.map Prod.fst).filter isBackupName =
        all31.filter (fun m => !(m == oldest)) := by
      rw [hwb, hcb, filter_map_fst_comm, hnames1]
      rw [List.filter_comm]
      rw [hfilter1]
    constructor
    · rw [hkept]
      have := filter_length_remove_one hnodup31 holdest
      rw [hlen31] at this
      omega
    · intro f hf hfk g hg hgk
      rw [hkept] at hfk hgk
      have hfo : f = oldest := by
        by_contra hc
        exact hfk (List.mem_filter.mpr ⟨hf, by simp [hc]⟩)
      rw [hfo]
      have hgasc : g ∈ oldest :: others := hperm.mem_iff.mpr hg
      rcases List.mem_cons.mp hgasc with rfl | hgo
      · exact lexLe_refl _
      · exact List.rel_of_sorted_cons hsorted g hgo

/-- A store holding a primary file and exactly `MAX_BACKUPS` backups. -/
def c5Store : Store :=
  { primary := some (FileData.db defaultDb),
    backups := (List.range MAX_BACKUPS).map
      (fun i => (backupFileName (bytes "A" ++ bytesOfNat i), FileData.db defaultDb)) }

/-- Claim C5 witness: one write against a directory already holding 30
backups keeps 30 files and removes only the lexicographically smallest
name. -/
theorem claim_C5_witness :
    (((write (bytes "B0") defaultDb c5Store).backups.map Prod.fst).filter
        isBackupName).length = MAX_BACKUPS ∧
    ∀ f ∈ (c5Store.backups.map Prod.fst).filter isBackupName ++
        [backupFileName (bytes "B0")],
      f ∉ ((write (bytes "B0") defaultDb c5Store).backups.map Prod.fst).filter
          isBackupName →
      ∀ g ∈ (c5Store.backups.map Prod.fst).filter isBackupName ++
          [backupFileName (bytes "B0")],
        g ∈ ((write (bytes "B0") defaultDb c5Store).backups.map Prod.fst).filter
            isBackupName →
        lexLe f g = true :=
  claim_C5 c5Store (bytes "B0") defaultDb (FileData.db defaultDb) rfl
    (by decide) (by decide) (by decide)

/-! ### Claim C7: rejection and silent part dropping -/

/-- A segment whose header block carries a `filename` attribute but no
`name` attribute. -/
def noNamePart : List Nat :=
  bytes "\r\nContent-Disposition: form-data; filename=\"x.png\"\r\n\r\nhi\r\n"

/-- A genuine `name` attribute in a Content-Disposition header block: the
attribute separator followed by the attribute, `; name="`. -/
def hasNameAttr (hdr : List Nat) : Bool :=
  (firstIndexOf hdr (bytes "; name=\"")).isSome

/-- Claim C7 counterexample: a segment with a filename attribute but *no*
name attribute is not silently dropped — the regex `/name="([^"]+)"/`
matches inside `filename="x.png"`, so the part is processed and stored as
an attachment whose field name is the filename capture. -/
theorem claim_C7_counterexample :
    hasNameAttr noNamePart = false ∧
    isDroppedPart noNamePart = false ∧
    processPart { fields := [], files := [] } noNamePart =
      { fields := [],
        files := [{ fieldName := bytes "x.png", originalName := bytes "x.png",
                    body := bytes "hi" }] } :=
  ⟨by decide, by decide, by decide⟩

/-- Claim C7 (amended): the parse rejects exactly when the content-type
carries no boundary token; a segment with no CR LF CR LF header/body
separator, or on whose header block the name-capture regex finds no match,
is silently dropped and processing of the remaining segments continues.
(A segment lacking a genuine name attribute can still be processed: the
name regex also matches inside a `filename="…"` attribute — see the
counterexample.) -/
theorem claim_C7_amended :
    (∀ ct buf, (parseMultipart ct buf).isSome = (matchBoundary ct).isSome) ∧
    (∀ acc part, firstIndexOf part sepCrlf = none → processPart acc part = acc) ∧
    (∀ acc part i, firstIndexOf part sepCrlf = some i →
      matchQuoted (bytes "name=\"") (part.take i) = none → processPart acc part = acc) := by
  refine ⟨?_, ?_, ?_⟩
  · intro ct buf
    unfold parseMultipart
    rcases h : matchBoundary ct with _ | b <;> simp
  · intro acc part h
    unfold processPart
    by_cases hres : jsTrim part = [] ∨ jsTrim part = [45, 45]
    · rw [if_pos hres]
    · rw [if_neg hres, h]
  · intro acc part i hs hn
    unfold processPart
    by_cases hres : jsTrim part = [] ∨ jsTrim part = [45, 45]
    · rw [if_pos hres]
    · rw [if_neg hres, hs]
      simp only [hn]

/-- Claim C7 witness: concrete rejection equivalence and two concretely
dropped segments. -/
theorem claim_C7_witness :
    (parseMultipart (bytes "text/plain") (bytes "abc")).isSome =
      (matchBoundary (bytes "text/plain")).isSome ∧
    processPart { fields := [], files := [] } (bytes "no separator here") =
      { fields := [], files := [] } ∧
    processPart { fields := [], files := [] } (bytes "\r\nX-Header: 1\r\n\r\nbody\r\n") =
      { fields := [], files := [] } :=
  ⟨claim_C7_amended.1 (bytes "text/plain") (bytes "abc"),
   claim_C7_amended.2.1 _ (bytes "no separator here") (by decide),
   claim_C7_amended.2.2 _ (bytes "\r\nX-Header: 1\r\n\r\nbody\r\n") 13 (by decide) (by decide)⟩

/-! ### Claims C6 and C10: the standings computation -/

/-- One standings row `{ id, name, w, l }` (src/db.js line 257). -/
structure Row where
  id : Nat
  name : List Nat
  w : Nat
  l : Nat
  deriving DecidableEq

/-- `map[m.id] = { id: m.id, name: m.name, w: 0, l: 0 }` on a JavaScript
object keyed by member id: overwrite the entry with that key if present,
otherwise insert it. -/
def setRow (rows : List Row) (r : Row) : List Row :=
  if rows.any (fun x => x.id == r.id) then
    rows.map (fun x => if x.id == r.id then r else x)
  else rows ++ [r]

/-- The member initialisation loop of src/db.js lines 256-258. -/
def initRows (members : List Member) : List Row :=
  members.foldl
    (fun rows m => setRow rows { id := m.id, name := m.name, w := 0, l := 0 }) []

/-- The winner marker strings. -/
def mOne : List Nat := bytes "m1"

def mTwo : List Nat := bytes "m2"

/-- One iteration of the judgments loop (src/db.js lines 259-267): winner
`"m1"` gives a win to the row keyed `m1Id` and a loss to the row keyed
`m2Id`, when those rows exist (`if (map[j.m1Id])`); winner `"m2"` is
symmetric; any other winner value — `null` included — changes nothing.
Updating the object at a key is a pointwise update of the rows holding
that id. -/
def applyJudgment (rows : List Row) (j : Judgment) : List Row :=
  if j.winner = some mOne then
    rows.map (fun r => { r with w := r.w + (if r.id = j.m1Id then 1 else 0),
                                l := r.l + (if r.id = j.m2Id then 1 else 0) })
  else if j.winner = some mTwo then
    rows.map (fun r => { r with w := r.w + (if r.id = j.m2Id then 1 else 0),
                                l := r.l + (if r.id = j.m1Id then 1 else 0) })
  else rows

/-- `Object.values(map)`: for integer-like keys JavaScript yields the
values in ascending numeric key order. -/
def valuesById (rows : List Row) : List Row :=
  List.insertionSort (fun a b => a.id ≤ b.id) rows

/-- The comparator of src/db.js lines 268-271: `a` may precede `b` when
`b.w - a.w` is negative, or zero weights differ not and `a.l - b.l ≤ 0` —
that is, strictly more wins, or equal wins and no more losses. -/
def rowOrder (a b : Row) : Prop :=
  b.w < a.w ∨ (b.w = a.w ∧ a.l ≤ b.l)

instance rowOrderDecidable : DecidableRel rowOrder := fun a b => by
  unfold rowOrder
  infer_instance

instance rowOrderTotal : IsTotal Row rowOrder :=
  ⟨fun a b => by unfold rowOrder; omega⟩

instance rowOrderTrans : IsTrans Row rowOrder :=
  ⟨fun a b c h1 h2 => by unfold rowOrder at h1 h2 ⊢; omega⟩

instance rowIdLeTotal : IsTotal Row (fun a b => a.id ≤ b.id) :=
  ⟨fun a b => Nat.le_total a.id b.id⟩

instance rowIdLeTrans : IsTrans Row (fun a b => a.id ≤ b.id) :=
  ⟨fun _ _ _ => Nat.le_trans⟩

/-- `getStandings` (src/db.js lines 253-272) as a function of the dataset
(the module first loads it with `read()`): build one zeroed row per member,
scan all judgments attributing wins and losses per the winner marker, then
sort the object's values by the comparator. -/
def getStandings (db : Db) : List Row :=
  List.insertionSort rowOrder
    (valuesById (db.judgments.foldl applyJudgment (initRows db.members)))

/-- Number of judgments attributing a win to the given member id: those
whose winner marker names the side the id holds. -/
def winsIn (js : List Judgment) (id : Nat) : Nat :=
  (js.filter (fun j => (j.winner == some mOne && j.m1Id == id) ||
    (j.winner == some mTwo && j.m2Id == id))).length

/-- Number of judgments attributing a loss to the given member id. -/
def lossesIn (js : List Judgment) (id : Nat) : Nat :=
  (js.filter (fun j => (j.winner == some mOne && j.m2Id == id) ||
    (j.winner == some mTwo && j.m1Id == id))).length

theorem winsIn_cons (j : Judgment) (js : List Judgment) (id : Nat) :
    winsIn (j :: js) id = winsIn js id +
      (if ((j.winner == some mOne && j.m1Id == id) ||
          (j.winner == some mTwo && j.m2Id == id)) = true then 1 else 0) := by
  unfold winsIn
  rw [List.filter_cons]
  by_cases hc : ((j.winner == some mOne && j.m1Id == id) ||
      (j.winner == some mTwo && j.m2Id == id)) = true
  · rw [if_pos hc, if_pos hc]
    simp
  · rw [if_neg hc, if_neg hc]
    simp

theorem lossesIn_cons (j : Judgment) (js : List Judgment) (id : Nat) :
    lossesIn (j :: js) id = lossesIn js id +
      (if ((j.winner == some mOne && j.m2Id == id) ||
          (j.winner == some mTwo && j.m1Id == id)) = true then 1 else 0) := by
  unfold lossesIn
  rw [List.filter_cons]
  by_cases hc : ((j.winner == some mOne && j.m2Id == id) ||
      (j.winner == some mTwo && j.m1Id == id)) = true
  · rw [if_pos hc, if_pos hc]
    simp
  · rw [if_neg hc, if_neg hc]
    simp

theorem foldl_applyJudgment (js : List Judgment) (rows : List Row) :
    js.foldl applyJudgment rows =
      rows.map (fun r => { r with w := r.w + winsIn js r.id,
                                  l := r.l + lossesIn js r.id }) := by
  induction js generalizing rows with
  | nil => exact (List.map_id rows).symm
  | cons j js ih =>
    rw [List.foldl_cons, ih]
    unfold applyJudgment
    by_cases h1 : j.winner = some mOne
    · rw [if_pos h1, List.map_map]
      apply List.map_congr_left
      intro r _
      have hm12 : (some mOne == some mTwo) = false := by decide
      simp only [Function.comp_apply, winsIn_cons, lossesIn_cons, h1,
        beq_self_eq_true, Bool.true_and, hm12, Bool.false_and, Bool.or_false,
        beq_iff_eq, Row.mk.injEq]
      refine ⟨trivial, trivial, ?_, ?_⟩
      · split_ifs <;> omega
      · split_ifs <;> omega
    · rw [if_neg h1]
      by_cases h2 : j.winner = some mTwo
      · rw [if_pos h2, List.map_map]
        apply List.map_congr_left
        intro r _
        have hm21 : (some mTwo == some mOne) = false := by decide
        simp only [Function.comp_apply, winsIn_cons, lossesIn_cons, h2,
          beq_self_eq_true, Bool.true_and, hm21, Bool.false_and, Bool.false_or,
          beq_iff_eq, Row.mk.injEq]
        refine ⟨trivial, trivial, ?_, ?_⟩
        · split_ifs <;> omega
        · split_ifs <;> omega
      · rw [if_neg h2]
        apply List.map_congr_left
        intro r _
        have hw1 : (j.winner == some mOne) = false := by simp [h1]
        have hw2 : (j.winner == some mTwo) = false := by simp [h2]
        simp [winsIn_cons, lossesIn_cons, hw1, hw2]

theorem foldl_setRow (members : List Member) : ∀ acc : List Row,
    (members.map Member.id).Nodup →
    (∀ m ∈ members, ∀ r ∈ acc, ¬r.id = m.id) →
    members.foldl
        (fun rows m => setRow rows { id := m.id, name := m.name, w := 0, l := 0 }) acc =
      acc ++ members.map (fun m => { id := m.id, name := m.name, w := 0, l := 0 }) := by
  induction members with
  | nil => intro acc _ _; simp
  | cons m ms ih =>
    intro acc hnd hdisj
    rw [List.foldl_cons]
    have hany : acc.any (fun x => x.id == m.id) = false := by
      rw [Bool.eq_false_iff]
      intro hc
      obtain ⟨r, hr, hbeq⟩ := List.any_eq_true.mp hc
      exact hdisj m (by simp) r hr (by simpa using hbeq)
    have hset : setRow acc { id := m.id, name := m.name, w := 0, l := 0 } =
        acc ++ [{ id := m.id, name := m.name, w := 0, l := 0 }] := by
      unfold setRow
      rw [if_neg (by simp [hany])]
    rw [hset]
    rw [List.map_cons] at hnd ⊢
    rcases List.nodup_cons.mp hnd with ⟨hmem, hnd'⟩
    rw [ih _ hnd' ?_]
    · rw [List.append_assoc]
      rfl
    · intro m' hm' r hr
      rcases List.mem_append.mp hr with hr | hr
      · exact hdisj m' (by simp [hm']) r hr
      · have : r = { id := m.id, name := m.name, w := 0, l := 0 } := by simpa using hr
        rw [this]
        intro hc
        have hc2 : m.id = m'.id := hc
        exact hmem (by rw [hc2]; exact List.mem_map_of_mem Member.id hm')

theorem initRows_eq {members : List Member} (h : (members.map Member.id).Nodup) :
    initRows members =
      members.map (fun m => { id := m.id, name := m.name, w := 0, l := 0 }) := by
  unfold initRows
  rw [foldl_setRow members [] h (by simp)]
  rfl

/-- Claim C6: for a dataset whose members carry distinct ids, the standings
are a permutation of one row per member holding that member's win and loss
counts — wins and losses obtained by scanning all judgments and
attributing them per the winner marker — and the returned sequence is
ordered by descending wins with ties broken by ascending losses. -/
theorem claim_C6 (db : Db) (hnd : (db.members.map Member.id).Nodup) :
    List.Perm (getStandings db)
      (db.members.map (fun m =>
        { id := m.id, name := m.name,
          w := winsIn db.judgments m.id, l := lossesIn db.judgments m.id })) ∧
    List.Pairwise rowOrder (getStandings db) := by
  constructor
  · unfold getStandings
    have hp1 : List.Perm
        (List.insertionSort rowOrder
          (valuesById (db.judgments.foldl applyJudgment (initRows db.members))))
        (valuesById (db.judgments.foldl applyJudgment (initRows db.members))) :=
      List.perm_insertionSort _ _
    have hp2 : List.Perm
        (valuesById (db.judgments.foldl applyJudgment (initRows db.members)))
        (db.judgments.foldl applyJudgment (initRows db.members)) :=
      List.perm_insertionSort _ _
    refine (hp1.trans hp2).trans ?_
    rw [foldl_applyJudgment, initRows_eq hnd, List.map_map]
    apply List.Perm.of_eq
    apply List.map_congr_left
    intro m _
    simp [Function.comp_apply]
  · exact List.sorted_insertionSort rowOrder _

/-- A three-member dataset in which member 2 beats member 1 twice and loses
once to member 3 (the spec's worked standings example). -/
def exStandingsDb : Db :=
  { members := [⟨1, bytes "A"⟩, ⟨2, bytes "B"⟩, ⟨3, bytes "C"⟩],
    schedule := [],
    submissions := [],
    judgments :=
      [⟨1, 2, 1, some mOne, []⟩, ⟨2, 2, 1, some mOne, []⟩, ⟨3, 2, 3, some mTwo, []⟩] }

/-- Claim C6 witness: on the example dataset the standings are a
permutation of the computed per-member counts (member 2 with 2 wins /
1 loss) and are sorted by the comparator. -/
theorem claim_C6_witness :
    List.Perm (getStandings exStandingsDb)
      (exStandingsDb.members.map (fun m =>
        { id := m.id, name := m.name,
          w := winsIn exStandingsDb.judgments m.id,
          l := lossesIn exStandingsDb.judgments m.id })) ∧
    List.Pairwise rowOrder (getStandings exStandingsDb) :=
  claim_C6 exStandingsDb (by decide)

/-- Claim C10: a judgment whose winner marker is neither `"m1"` nor `"m2"`
— for example `null`, as stored when no pick could be parsed from the
judge response — contributes no win and no loss to either side: removing it
from the dataset leaves `getStandings` unchanged. -/
theorem claim_C10 (mems : List Member) (sched : List Week) (subs : List Submission)
    (js1 js2 : List Judgment) (j : Judgment)
    (h1 : j.winner ≠ some mOne) (h2 : j.winner ≠ some mTwo) :
    getStandings
      { members := mems, schedule := sched, submissions := subs,
        judgments := js1 ++ j :: js2 } =
    getStandings
      { members := mems, schedule := sched, submissions := subs,
        judgments := js1 ++ js2 } := by
  unfold getStandings
  congr 1
  congr 1
  show (js1 ++ j :: js2).foldl applyJudgment (initRows mems) =
    (js1 ++ js2).foldl applyJudgment (initRows mems)
  rw [List.foldl_append, List.foldl_append, List.foldl_cons]
  congr 1
  unfold applyJudgment
  rw [if_neg h1, if_neg h2]

/-- Claim C10 witness: a `null`-winner judgment leaves the standings of a
one-member dataset unchanged. -/
theorem claim_C10_witness :
    getStandings
      { members := [⟨1, bytes "A"⟩], schedule := [], submissions := [],
        judgments := [] ++ ⟨1, 1, 2, none, []⟩ :: [] } =
    getStandings
      { members := [⟨1, bytes "A"⟩], schedule := [], submissions := [],
        judgments := [] ++ [] } :=
  claim_C10 [⟨1, bytes "A"⟩] [] [] [] [] ⟨1, 1, 2, none, []⟩ (by decide) (by decide)

end BirdLeague
